import Mathlib

/-!
Verification of the `bitset` Go package (word-packed, growable bit vectors).

The definitions below are a shallow embedding of `src/bitset.go`.  Go's
`uint`/`uint64` values are modelled as `Nat` with explicit `% 2 ^ 64`
truncation at the points where the machine arithmetic can wrap; a Go slice
`[]uint64` is modelled as `List Nat` (each element kept `< 2 ^ 64` by
construction), and a slice read that Go would perform with bounds checking is
modelled with `List.getD _ 0` (an out-of-range read, a runtime panic in Go, is
unreachable in every theorem below, which quantify over well-formed inputs).
The one panic that *is* reachable from well-formed states — the bounds-checked
slice write in `Set` when the growth arithmetic wraps or hits the `wordsNeeded`
clamp near `^uint(0)`, the panic the repository's `TestExceedCap` expects — is
modelled explicitly: `Set` returns `Option BitSet` and that panic is `none`.
-/

namespace BitsetSpec

/-- Word size of a bit set (`wordSize` in bitset.go). -/
def wordSize : Nat := 64

/-- All 64 bits set (`allBits` in bitset.go). -/
def allBits : Nat := 0xffffffffffffffff

/-- Log2 of the word size (`log2WordSize` in bitset.go). -/
def log2WordSize : Nat := 6

/-- Largest value of Go's 64-bit `uint` (`^uint(0)`). -/
def uintMax : Nat := 2 ^ 64 - 1

/-- `wordsNeeded` from bitset.go: number of 64-bit words needed for `i` bits,
with the overflow guard near `^uint(0)`. -/
def wordsNeeded (i : Nat) : Nat :=
  if i > uintMax - wordSize + 1 then uintMax >>> log2WordSize
  else (i + (wordSize - 1)) >>> log2WordSize

/-- The `BitSet` struct from bitset.go: a logical length in bits plus the
backing storage words.  The Go zero value (`length == 0`, nil slice) is
`⟨0, []⟩`; a nil slice and an empty slice are not distinguished. -/
structure BitSet where
  length : Nat
  set : List Nat
deriving Repr, DecidableEq

/-- `New` from bitset.go. -/
def New (length : Nat) : BitSet :=
  ⟨length, List.replicate (wordsNeeded length) 0⟩

/-- `Len` from bitset.go. -/
def Len (b : BitSet) : Nat := b.length

/-- Go's `x &^ y` (and-not) on 64-bit words, for `x y < 2 ^ 64`. -/
def andNot (x y : Nat) : Nat := x &&& (allBits ^^^ y)

/-- `Test` from bitset.go: out-of-range reads are `false`; in range, test the
bit `i mod 64` of word `i div 64`. -/
def Test (b : BitSet) (i : Nat) : Bool :=
  if i ≥ b.length then false
  else (b.set.getD (i >>> log2WordSize) 0 &&& 1 <<< (i &&& (wordSize - 1))) != 0

/-- `extendSetMaybe` from bitset.go: growth policy for writes at `i ≥ length`.
Go's reallocate-and-copy into a fresh `nsize`-word slice is the same list as
padding the old one with zero words.  Go's `i + 1` is 64-bit `uint`
arithmetic, so at `i = ^uint(0)` it wraps to 0: nothing is allocated and the
length is zeroed — the first half of the panic the repository's
`TestExceedCap` expects from `Set(Cap())`. -/
def extendSetMaybe (b : BitSet) (i : Nat) : BitSet :=
  if i ≥ b.length then
    let nsize := wordsNeeded ((i + 1) % 2 ^ 64)
    let s := if b.set.length < nsize
      then b.set ++ List.replicate (nsize - b.set.length) 0
      else b.set
    ⟨(i + 1) % 2 ^ 64, s⟩
  else b

/-- `Set` from bitset.go: grow if needed, then or-in the bit.  The slice
write `b.set[i >> log2WordSize] |= …` is bounds-checked in Go; `none` models
its index-out-of-range panic, reachable when `i + 1` wraps or `wordsNeeded`
clamps (positions `≥ 2^64 - 64`) so that the storage was not grown far enough
— exactly the panic the repository's `TestExceedCap` expects at `Set(Cap())`. -/
def Set (b : BitSet) (i : Nat) : Option BitSet :=
  let b' := extendSetMaybe b i
  if i >>> log2WordSize < b'.set.length then
    some { b' with
      set := b'.set.set (i >>> log2WordSize)
        (b'.set.getD (i >>> log2WordSize) 0 ||| 1 <<< (i &&& (wordSize - 1))) }
  else none

/-- `Clear` from bitset.go: no-op when out of range, else and-not the bit. -/
def Clear (b : BitSet) (i : Nat) : BitSet :=
  if i ≥ b.length then b
  else
    { b with
      set := b.set.set (i >>> log2WordSize)
        (andNot (b.set.getD (i >>> log2WordSize) 0) (1 <<< (i &&& (wordSize - 1)))) }

/-- `SetTo` from bitset.go (the `Clear` path performs no growth and, from an
invariant-satisfying state, no out-of-range write). -/
def SetTo (b : BitSet) (i : Nat) (value : Bool) : Option BitSet :=
  if value then Set b i else some (Clear b i)

/-- `Flip` from bitset.go: behaves as `Set` (including its panic behaviour)
when out of range, else xor in place. -/
def Flip (b : BitSet) (i : Nat) : Option BitSet :=
  if i ≥ b.length then Set b i
  else
    some { b with
      set := b.set.set (i >>> log2WordSize)
        (b.set.getD (i >>> log2WordSize) 0 ^^^ 1 <<< (i &&& (wordSize - 1))) }

/-- The de Bruijn table from bitset.go. -/
def deBruijn : List Nat :=
  [0, 1, 56, 2, 57, 49, 28, 3, 61, 58, 42, 50, 38, 29, 17, 4,
   62, 47, 59, 36, 45, 43, 51, 22, 53, 39, 33, 30, 24, 18, 12, 5,
   63, 55, 48, 27, 60, 41, 37, 16, 46, 35, 44, 21, 52, 32, 23, 11,
   54, 26, 40, 15, 34, 20, 31, 10, 25, 14, 19, 9, 13, 8, 7, 6]

/-- `trailingZeroes64` from bitset.go: `v & -v` isolates the lowest set bit,
and the de Bruijn multiplication looks up its index (Go's unary minus on
`uint64` is subtraction from `2 ^ 64`, truncated). -/
def trailingZeroes64 (v : Nat) : Nat :=
  deBruijn.getD (((v &&& ((2 ^ 64 - v) % 2 ^ 64)) * 0x03f79d71b4ca8b09 % 2 ^ 64) >>> 58) 0

/-- The word scan loop of `NextClear` (bitset.go lines 166-172), starting at
word index `x`: the first word that is not `allBits` yields a clear bit. -/
def scanClear (x : Nat) : List Nat → Nat × Bool
  | [] => (0, false)
  | w :: ws =>
    if w != allBits then (x * wordSize + trailingZeroes64 (allBits ^^^ w), true)
    else scanClear (x + 1) ws

/-- `NextClear` from bitset.go: note that the scan runs over the whole backing
storage, with no comparison against `b.length`. -/
def NextClear (b : BitSet) (i : Nat) : Nat × Bool :=
  let x := i >>> log2WordSize
  if x ≥ b.set.length then (0, false)
  else
    let w := b.set.getD x 0 >>> (i &&& (wordSize - 1))
    let wA := allBits >>> (i &&& (wordSize - 1))
    if w != wA then (i + trailingZeroes64 (allBits ^^^ w), true)
    else scanClear (x + 1) (b.set.drop (x + 1))

/-- The word scan loop of `NextSet` (bitset.go lines 189-196). -/
def scanSet (x : Nat) : List Nat → Nat × Bool
  | [] => (0, false)
  | w :: ws =>
    if w != 0 then (x * wordSize + trailingZeroes64 w, true)
    else scanSet (x + 1) ws

/-- `NextSet` from bitset.go. -/
def NextSet (b : BitSet) (i : Nat) : Nat × Bool :=
  let x := i >>> log2WordSize
  if x ≥ b.set.length then (0, false)
  else
    let w := b.set.getD x 0 >>> (i &&& (wordSize - 1))
    if w != 0 then (i + trailingZeroes64 w, true)
    else scanSet (x + 1) (b.set.drop (x + 1))

/-- `ClearAll` from bitset.go: zero every word, length unchanged. -/
def ClearAll (b : BitSet) : BitSet :=
  { b with set := List.replicate b.set.length 0 }

/-- `wordCount` from bitset.go. -/
def wordCount (b : BitSet) : Nat := wordsNeeded b.length

/-- Go's builtin `copy(dst, src)`: overwrite the first
`min (dst.length) (src.length)` elements of `dst` with those of `src`. -/
def goCopy (dst src : List Nat) : List Nat :=
  src.take (min dst.length src.length) ++ dst.drop (min dst.length src.length)

/-- `Clone` from bitset.go: `copy` the words into a fresh `New b.length`. -/
def Clone (b : BitSet) : BitSet :=
  ⟨b.length, goCopy (List.replicate (wordsNeeded b.length) 0) b.set⟩

/-- `Copy` from bitset.go (the non-nil destination path): `copy` the words
into `c`'s existing storage and return the updated destination together with
the returned count `min b.length c.length`.  Note that whole words are copied
and the partial final word of the destination is not masked. -/
def Copy (b c : BitSet) : BitSet × Nat :=
  ({ c with set := goCopy c.set b.set },
   if b.length < c.length then b.length else c.length)

/-- The SWAR `popcount` from popcnt.go (the `x -= (x >> 1) & m1` step cannot
underflow, so Nat subtraction agrees with the Go `uint64` arithmetic). -/
def popcount (x : Nat) : Nat :=
  let x1 := x - (x >>> 1 &&& 0x5555555555555555)
  let x2 := (x1 >>> 2 &&& 0x3333333333333333) + (x1 &&& 0x3333333333333333)
  let x3 := (x2 + (x2 >>> 4)) &&& 0x0f0f0f0f0f0f0f0f
  (x3 * 0x0101010101010101 % 2 ^ 64) >>> 56

/-- `popcntSlice` from popcnt.go. -/
def popcntSlice (s : List Nat) : Nat :=
  s.foldl (fun cnt x => cnt + popcount x) 0

/-- `Count` from bitset.go. -/
def Count (b : BitSet) : Nat := popcntSlice b.set

/-- The word comparison loop of `Equal` (bitset.go lines 275-279), which
ranges over the receiver's words and indexes the argument's; the Go
index-out-of-range panic when the argument's slice is shorter is modelled as
`false` (unreachable for well-formed operand pairs of equal length). -/
def eqWords : List Nat → List Nat → Bool
  | [], _ => true
  | _ :: _, [] => false
  | w :: ws, v :: vs => w == v && eqWords ws vs

/-- `Equal` from bitset.go (non-nil argument path). -/
def Equal (b c : BitSet) : Bool :=
  if b.length != c.length then false
  else if b.length == 0 then true
  else eqWords b.set c.set

/-- `sortByLength` from bitset.go. -/
def sortByLength (a b : BitSet) : BitSet × BitSet :=
  if a.length ≤ b.length then (a, b) else (b, a)

/-- `Difference` from bitset.go: clone the receiver, then overwrite the first
`min (wordCount compare) (wordCount b)` words with `b.set[i] &^ compare.set[i]`. -/
def Difference (b compare : BitSet) : BitSet :=
  let result := Clone b
  let l := min (wordCount compare) (wordCount b)
  { result with
    set := goCopy result.set
      (List.zipWith andNot (b.set.take l) (compare.set.take l)) }

/-- `Intersection` from bitset.go: order the operands by length, allocate the
shorter length, and and together the words indexed by the shorter slice. -/
def Intersection (b compare : BitSet) : BitSet :=
  let p := sortByLength b compare
  ⟨(p.1).length,
   goCopy (List.replicate (wordsNeeded (p.1).length) 0)
     (List.zipWith (fun w v => w &&& v) (p.1).set (p.2).set)⟩

/-- `Union` from bitset.go: order the operands by length, clone the longer,
and or in the words indexed by the shorter slice. -/
def Union (b compare : BitSet) : BitSet :=
  let p := sortByLength b compare
  let result := Clone p.2
  { result with
    set := goCopy result.set
      (List.zipWith (fun w v => w ||| v) (p.1).set (p.2).set) }

/-- `SymmetricDifference` from bitset.go: order the operands by length, clone
the longer, and xor in the words indexed by the shorter slice. -/
def SymmetricDifference (b compare : BitSet) : BitSet :=
  let p := sortByLength b compare
  let result := Clone p.2
  { result with
    set := goCopy result.set
      (List.zipWith (fun w v => w ^^^ v) (p.1).set (p.2).set) }

/-- `isEven` from bitset.go. -/
def isEven (b : BitSet) : Bool := b.length % wordSize == 0

/-- `cleanLastWord` from bitset.go: mask the unused bits of the last word. -/
def cleanLastWord (b : BitSet) : BitSet :=
  if isEven b then b
  else
    { b with
      set := b.set.set (wordsNeeded b.length - 1)
        (b.set.getD (wordsNeeded b.length - 1) 0 &&&
          allBits >>> (wordSize - b.length % wordSize)) }

/-- `Complement` from bitset.go: flip every word into a fresh allocation, then
mask the tail. -/
def Complement (b : BitSet) : BitSet :=
  cleanLastWord
    ⟨b.length,
     goCopy (List.replicate (wordsNeeded b.length) 0)
       (b.set.map (fun word => allBits ^^^ word))⟩

/-! Well-formedness: the data-model invariants of §3 of the spec (storage
exactly `ceil(length/64)` words, words are 64-bit values, tail cleanliness),
plus the machine-representability bound under which `wordsNeeded` takes its
normal branch. -/

/-- Storage bit `i` of a word list: bit `i mod 64` of word `i div 64` (reads
beyond the list are zero words). -/
def bitAt (ws : List Nat) (i : Nat) : Bool :=
  (ws.getD (i / 64) 0).testBit (i % 64)

/-- Tail cleanliness: every storage bit at a position `≥ length` is zero. -/
def TailClean (b : BitSet) : Prop :=
  ∀ i, b.length ≤ i → bitAt b.set i = false

/-- Every stored word fits in 64 bits. -/
def WordsBounded (ws : List Nat) : Prop := ∀ w ∈ ws, w < 2 ^ 64

/-- Well-formed bit sets: exact storage size, machine-representable length,
bounded words, and a clean tail. -/
def WF (b : BitSet) : Prop :=
  b.set.length = wordsNeeded b.length ∧ b.length + wordSize ≤ 2 ^ 64 ∧
    WordsBounded b.set ∧ TailClean b

theorem bitAt_of_ge (ws : List Nat) (i : Nat) (h : 64 * ws.length ≤ i) :
    bitAt ws i = false := by
  unfold bitAt
  rw [List.getD_eq_default]
  · simp [Nat.testBit]
  · omega

theorem tailClean_iff (b : BitSet) :
    TailClean b ↔ ∀ i < 64 * b.set.length, b.length ≤ i → bitAt b.set i = false := by
  constructor
  · intro h i _ hl
    exact h i hl
  · intro h i hl
    by_cases hlt : i < 64 * b.set.length
    · exact h i hlt hl
    · exact bitAt_of_ge b.set i (by omega)

instance (b : BitSet) : Decidable (TailClean b) :=
  decidable_of_iff _ (tailClean_iff b).symm

instance (ws : List Nat) : Decidable (WordsBounded ws) := by
  unfold WordsBounded
  infer_instance

instance (b : BitSet) : Decidable (WF b) := by
  unfold WF
  infer_instance

/-! Serialization (`WriteTo` / `ReadFrom` / `MarshalJSON` / `UnmarshalJSON`).
Streams are modelled as byte lists (each element `< 256`); `encoding/binary`'s
big-endian writes and reads of `uint64` values are spelled out, and its error
behaviour follows `io.ReadFull`: reading `n > 0` bytes from an empty stream
fails with `io.EOF`, while a partial read fails with `io.ErrUnexpectedEOF`. -/

/-- Errors surfaced by the decoding paths. -/
inductive SerErr where
  | eof
  | unexpectedEOF
  | jsonError
  | base64Error
deriving Repr, DecidableEq

/-- Big-endian bytes of a `uint64` value. -/
def be64 (x : Nat) : List Nat :=
  [x >>> 56 % 256, x >>> 48 % 256, x >>> 40 % 256, x >>> 32 % 256,
   x >>> 24 % 256, x >>> 16 % 256, x >>> 8 % 256, x % 256]

/-- Big-endian `uint64` value of the first 8 bytes of a list. -/
def rd64 (l : List Nat) : Nat :=
  l.getD 0 0 * 2 ^ 56 + l.getD 1 0 * 2 ^ 48 + l.getD 2 0 * 2 ^ 40 +
    l.getD 3 0 * 2 ^ 32 + l.getD 4 0 * 2 ^ 24 + l.getD 5 0 * 2 ^ 16 +
    l.getD 6 0 * 2 ^ 8 + l.getD 7 0

/-- `io.ReadFull` on a finite stream: take `n` bytes and return them with the
rest of the stream, `io.EOF` when the stream is empty, `io.ErrUnexpectedEOF`
when it is only partially available. -/
def readFull (stream : List Nat) (n : Nat) : Except SerErr (List Nat × List Nat) :=
  if n ≤ stream.length then .ok (stream.take n, stream.drop n)
  else if stream.length == 0 then .error .eof
  else .error .unexpectedEOF

/-- `WriteTo` from bitset.go: the 8-byte big-endian length followed by each
storage word as 8 big-endian bytes. -/
def WriteTo (b : BitSet) : List Nat :=
  be64 b.length ++ (b.set.map be64).flatten

/-- `ReadFrom` from bitset.go: read the length, allocate `New length`, then
read its words from the stream (trailing bytes are not consumed).  The Go
`uint`-vs-`uint64` mismatch check never fires on a 64-bit `uint`. -/
def ReadFrom (stream : List Nat) : Except SerErr BitSet := do
  let (lengthBytes, rest) ← readFull stream 8
  let length := rd64 lengthBytes
  let n := wordsNeeded length
  let (wordBytes, _) ← readFull rest (8 * n)
  pure ⟨length, (List.range n).map (fun k => rd64 (wordBytes.drop (8 * k)))⟩

/-- The receiver-mutating shape of Go's `ReadFrom`: `*b = *newset` happens
only on success, so on error the receiver is returned unchanged. -/
def readFromInto (b : BitSet) (stream : List Nat) : BitSet × Option SerErr :=
  match ReadFrom stream with
  | .ok w => (w, none)
  | .error e => (b, some e)

/-! The JSON codec: `MarshalJSON` base64url-encodes the `WriteTo` bytes and
wraps them in a JSON string; `UnmarshalJSON` inverts each layer.  The
`encoding/base64` URL alphabet and `encoding/json` string quoting (no
characters of the base64 alphabet need escaping) are modelled directly. -/

/-- Character (code) of a sextet in the base64url alphabet `A-Za-z0-9-_`. -/
def b64Char (k : Nat) : Nat :=
  if k < 26 then 65 + k
  else if k < 52 then 97 + (k - 26)
  else if k < 62 then 48 + (k - 52)
  else if k = 62 then 45
  else 95

/-- Sextet of a base64url character code, `none` outside the alphabet. -/
def b64Val (c : Nat) : Option Nat :=
  if 65 ≤ c ∧ c ≤ 90 then some (c - 65)
  else if 97 ≤ c ∧ c ≤ 122 then some (c - 97 + 26)
  else if 48 ≤ c ∧ c ≤ 57 then some (c - 48 + 52)
  else if c = 45 then some 62
  else if c = 95 then some 63
  else none

/-- Base64url encoding of a byte list, with `=` (code 61) padding. -/
def b64Encode : List Nat → List Nat
  | [] => []
  | [b0] => [b64Char (b0 / 4), b64Char (b0 % 4 * 16), 61, 61]
  | [b0, b1] => [b64Char (b0 / 4), b64Char (b0 % 4 * 16 + b1 / 16),
                 b64Char (b1 % 16 * 4), 61]
  | b0 :: b1 :: b2 :: rest =>
    b64Char (b0 / 4) :: b64Char (b0 % 4 * 16 + b1 / 16) ::
      b64Char (b1 % 16 * 4 + b2 / 64) :: b64Char (b2 % 64) :: b64Encode rest

/-- Base64url decoding, processing four characters at a time; padding is
accepted only at the end. -/
def b64Decode : List Nat → Option (List Nat)
  | [] => some []
  | c0 :: c1 :: c2 :: c3 :: rest => do
    let v0 ← b64Val c0
    let v1 ← b64Val c1
    if c2 = 61 ∧ c3 = 61 ∧ rest = [] then
      pure [v0 * 4 + v1 / 16]
    else do
      let v2 ← b64Val c2
      if c3 = 61 ∧ rest = [] then
        pure [v0 * 4 + v1 / 16, v1 % 16 * 16 + v2 / 4]
      else do
        let v3 ← b64Val c3
        let tl ← b64Decode rest
        pure ((v0 * 4 + v1 / 16) :: (v1 % 16 * 16 + v2 / 4) :: (v2 % 4 * 64 + v3) :: tl)
  | _ => none

/-- `MarshalJSON` from bitset.go: the `WriteTo` bytes, base64url-encoded,
wrapped in a JSON string (`"` is code 34). -/
def MarshalJSON (b : BitSet) : List Nat :=
  34 :: b64Encode (WriteTo b) ++ [34]

/-- Parsing of a JSON string literal whose content needs no escape handling
(true of the base64 alphabet plus padding). -/
def jsonString (data : List Nat) : Option (List Nat) :=
  match data with
  | c :: rest => if c == 34 && rest.getLast? == some 34 then some rest.dropLast else none
  | [] => none

/-- `UnmarshalJSON` from bitset.go: unwrap the JSON string, base64url-decode
it, and `ReadFrom` the resulting bytes. -/
def UnmarshalJSON (data : List Nat) : Except SerErr BitSet := do
  let s ← match jsonString data with
    | some s => Except.ok s
    | none => Except.error SerErr.jsonError
  let buf ← match b64Decode s with
    | some buf => Except.ok buf
    | none => Except.error SerErr.base64Error
  ReadFrom buf

/-! Structural edits.  `InsertAt` / `DeleteAt` are not present in the source
under `src/`; only the repository's tests exercise them, so they are modelled
from the specification (§4.3). -/

/-- Modelled from the spec: the carry-propagation loop of `InsertAt`, missing
from `src/`.  Every word shifts its entire content left by one, placing the
incoming carry in bit 0 and producing a new outgoing carry from its vacated
top bit; returns the shifted words and the final outgoing carry. -/
def insWords (c : Bool) : List Nat → List Nat × Bool
  | [] => ([], c)
  | w :: ws =>
    let p := insWords (decide (2 ^ 63 ≤ w)) ws
    ((2 * w + cond c 1 0) % 2 ^ 64 :: p.1, p.2)

/-- Modelled from the spec: `InsertAt(p)`, missing from `src/`.  One clear bit
is inserted at logical position `p`: in the word containing `p`, bits at or
above the sub-word offset shift left by one place (the bit falling out of the
top becomes a carry into the next word), bits below are untouched; subsequent
words shift left by one with carry propagation; the length increases by 1,
growing the storage (and storing the final carry in the new trailing word)
when the new length needs another word. -/
def InsertAt (b : BitSet) (p : Nat) : BitSet :=
  let j := p / 64
  let r := p % 64
  let w := b.set.getD j 0
  let wj := w % 2 ^ r ||| (w >>> r <<< (r + 1)) % 2 ^ 64
  let q := insWords (decide (2 ^ 63 ≤ w)) (b.set.drop (j + 1))
  let words := b.set.take j ++ wj :: q.1
  ⟨b.length + 1,
   if words.length < wordsNeeded (b.length + 1)
   then words ++ [cond q.2 1 0] else words⟩

/-- Modelled from the spec: the carry-propagation loop of `DeleteAt`, missing
from `src/`.  Each word shifts right by one, taking the bit 0 of the
next-higher word (prior to that word's own shift) into its vacated top bit;
returns the shifted words and the bit 0 carried down to the word below. -/
def delWords : List Nat → List Nat × Bool
  | [] => ([], false)
  | w :: ws =>
    let p := delWords ws
    ((w >>> 1 ||| cond p.2 (2 ^ 63) 0) :: p.1, decide (w % 2 = 1))

/-- Modelled from the spec: `DeleteAt(p)`, missing from `src/`.  The bit at
`p` is removed, every bit above it shifts down by one, the length decreases
by 1, and the storage is reduced to `ceil(newLength/64)` words as the §3
invariant requires after every mutating operation. -/
def DeleteAt (b : BitSet) (p : Nat) : BitSet :=
  let j := p / 64
  let r := p % 64
  let w := b.set.getD j 0
  let q := delWords (b.set.drop (j + 1))
  let wj := w % 2 ^ r ||| w >>> (r + 1) <<< r ||| cond q.2 (2 ^ 63) 0
  ⟨b.length - 1, (b.set.take j ++ wj :: q.1).take (wordsNeeded (b.length - 1))⟩

/-! Concrete vectors used by the evaluation theorems. -/

/-- A tail-clean vector of length 100 with all 100 bits set (the vector of
the spec's concrete scenario B and of the repository's `TestNextClear`). -/
def allSet100 : BitSet := ⟨100, [allBits, 2 ^ 36 - 1]⟩

/-- A vector of length 16 with all 16 bits set (the source vector of the
repository's `TestCopyUnaligned`, first scenario). -/
def allSet16 : BitSet := ⟨16, [0xFFFF]⟩

/-- A vector of length 32 with bits {0,3,4,16,17,29,31} set (the source
vector of the repository's `TestCopyUnaligned`, second scenario). -/
def mixed32 : BitSet :=
  ⟨32, [2 ^ 0 + 2 ^ 3 + 2 ^ 4 + 2 ^ 16 + 2 ^ 17 + 2 ^ 29 + 2 ^ 31]⟩

/-- A well-formed 70-bit vector used to instantiate the algebra laws. -/
def sample70 : BitSet := ⟨70, [123456789, 63]⟩

/-- A well-formed 10-bit vector used to instantiate the algebra laws. -/
def sample10 : BitSet := ⟨10, [0x2AA]⟩

/-- A well-formed 10-bit vector with bit 5 set, used for the write theorems
and for the `Set(Cap())` panic evaluations. -/
def bit5of10 : BitSet := ⟨10, [32]⟩

/-! Bridge lemmas between the machine-level operations of the source and the
`Nat.testBit` view used by the proofs. -/

theorem and_one_shl_ne (w r : Nat) : ((w &&& 1 <<< r) != 0) = w.testBit r := by
  have h1 : 1 <<< r = 2 ^ r := by rw [Nat.shiftLeft_eq, one_mul]
  rw [h1, Nat.and_two_pow]
  cases h : w.testBit r <;> simp [h, Nat.pos_iff_ne_zero, pow_ne_zero]

theorem shiftRight_six (i : Nat) : i >>> log2WordSize = i / 64 := by
  rw [log2WordSize, Nat.shiftRight_eq_div_pow]

theorem and_sixtyThree (i : Nat) : i &&& (wordSize - 1) = i % 64 := by
  have h : wordSize - 1 = 2 ^ 6 - 1 := by norm_num [wordSize]
  rw [h, Nat.and_pow_two_sub_one_eq_mod]

theorem Test_eq_bitAt (b : BitSet) (i : Nat) (h : i < b.length) :
    Test b i = bitAt b.set i := by
  unfold Test bitAt
  rw [if_neg (by omega), shiftRight_six, and_sixtyThree, and_one_shl_ne]

theorem Test_of_ge (b : BitSet) (i : Nat) (h : b.length ≤ i) :
    Test b i = false := by
  unfold Test
  rw [if_pos h]

theorem Test_eq_bitAt_of_tailClean (b : BitSet) (h : TailClean b) (i : Nat) :
    Test b i = bitAt b.set i := by
  by_cases hi : i < b.length
  · exact Test_eq_bitAt b i hi
  · rw [Test_of_ge b i (by omega), h i (by omega)]

theorem goCopy_length (dst src : List Nat) : (goCopy dst src).length = dst.length := by
  unfold goCopy
  rw [List.length_append, List.length_take, List.length_drop]
  omega

theorem goCopy_of_le (dst src : List Nat) (h : dst.length ≤ src.length) :
    goCopy dst src = src.take dst.length := by
  unfold goCopy
  rw [min_eq_left h, List.drop_of_length_le (le_refl _), List.append_nil]

theorem goCopy_of_ge (dst src : List Nat) (h : src.length ≤ dst.length) :
    goCopy dst src = src ++ dst.drop src.length := by
  unfold goCopy
  rw [min_eq_right h, List.take_of_length_le (le_refl _)]

theorem Clone_set (b : BitSet) (h : b.set.length = wordsNeeded b.length) :
    (Clone b).set = b.set := by
  unfold Clone
  show goCopy (List.replicate (wordsNeeded b.length) 0) b.set = b.set
  rw [goCopy_of_le _ _ (by simp [h]), List.length_replicate, ← h, List.take_length]

theorem wordsNeeded_eq (i : Nat) (h : i + 64 ≤ 2 ^ 64) : wordsNeeded i = (i + 63) / 64 := by
  unfold wordsNeeded uintMax wordSize log2WordSize
  rw [if_neg (by omega), Nat.shiftRight_eq_div_pow]

theorem le_mul_wordsNeeded (i : Nat) (h : i + 64 ≤ 2 ^ 64) : i ≤ 64 * wordsNeeded i := by
  rw [wordsNeeded_eq i h]
  omega

theorem div_lt_wordsNeeded (j i : Nat) (hj : j < i) (h : i + 64 ≤ 2 ^ 64) :
    j / 64 < wordsNeeded i := by
  rw [wordsNeeded_eq i h]
  omega

theorem getD_append_replicate_zero (l : List Nat) (n k : Nat) :
    (l ++ List.replicate n 0).getD k 0 = l.getD k 0 := by
  rw [List.getD_eq_getElem?_getD, List.getD_eq_getElem?_getD, List.getElem?_append]
  split
  · rfl
  · rw [List.getElem?_replicate]
    split <;> simp_all [List.getElem?_eq_none (by omega : l.length ≤ k)]

theorem getD_set_self (l : List Nat) (i a : Nat) (h : i < l.length) :
    (l.set i a).getD i 0 = a := by
  rw [List.getD_eq_getElem?_getD, List.getElem?_set_self h]
  rfl

theorem getD_set_ne (l : List Nat) (i j a : Nat) (h : i ≠ j) :
    (l.set i a).getD j 0 = l.getD j 0 := by
  rw [List.getD_eq_getElem?_getD, List.getElem?_set_ne h, ← List.getD_eq_getElem?_getD]

theorem bitAt_congr (ws ws' : List Nat) (h : ∀ k, ws.getD k 0 = ws'.getD k 0) (i : Nat) :
    bitAt ws i = bitAt ws' i := by
  unfold bitAt
  rw [h]

theorem bitAt_or_update (ws : List Nat) (p i : Nat) (h : p / 64 < ws.length) :
    bitAt (ws.set (p / 64) (ws.getD (p / 64) 0 ||| 1 <<< (p &&& (wordSize - 1)))) i
      = (bitAt ws i || decide (i = p)) := by
  rw [and_sixtyThree]
  unfold bitAt
  have h1 : 1 <<< (p % 64) = 2 ^ (p % 64) := by rw [Nat.shiftLeft_eq, one_mul]
  by_cases hq : i / 64 = p / 64
  · rw [hq, getD_set_self _ _ _ h, Nat.testBit_or, h1]
    by_cases hip : i % 64 = p % 64
    · have hip2 : i = p := by omega
      simp [hip2, Nat.testBit_two_pow_self]
    · have hne : i ≠ p := by omega
      have hbit : (2 ^ (p % 64)).testBit (i % 64) = false :=
        Nat.testBit_two_pow_of_ne (fun hh => hip (by omega))
      simp [hne, hbit]
  · rw [getD_set_ne _ _ _ _ (fun hh => hq hh.symm)]
    have hne : i ≠ p := fun hh => hq (by rw [hh])
    simp [hne]

theorem extendSetMaybe_length (v : BitSet) (p : Nat) (hp : v.length ≤ p)
    (hb : p + 1 < 2 ^ 64) : (extendSetMaybe v p).length = p + 1 := by
  unfold extendSetMaybe
  rw [if_pos hp]
  dsimp only
  exact Nat.mod_eq_of_lt hb

theorem extendSetMaybe_getD (v : BitSet) (p : Nat) (hp : v.length ≤ p) (k : Nat) :
    (extendSetMaybe v p).set.getD k 0 = v.set.getD k 0 := by
  unfold extendSetMaybe
  rw [if_pos hp]
  dsimp only
  split
  · exact getD_append_replicate_zero _ _ _
  · rfl

theorem extendSetMaybe_setLength (v : BitSet) (p : Nat) (hp : v.length ≤ p)
    (hb : p + 1 < 2 ^ 64) :
    wordsNeeded (p + 1) ≤ (extendSetMaybe v p).set.length ∧
      v.set.length ≤ (extendSetMaybe v p).set.length := by
  unfold extendSetMaybe
  rw [if_pos hp]
  dsimp only
  rw [Nat.mod_eq_of_lt hb]
  split
  · simp
    omega
  · simp
    omega

theorem Set_some_of_ge (v : BitSet) (p : Nat) (hp : v.length ≤ p)
    (hb : p + 65 ≤ 2 ^ 64) :
    ∃ w, Set v p = some w ∧ w.length = p + 1 ∧
      wordsNeeded (p + 1) ≤ w.set.length ∧
      ∀ k, bitAt w.set k = (bitAt v.set k || decide (k = p)) := by
  have hb1 : p + 1 < 2 ^ 64 := by omega
  have hlen := extendSetMaybe_length v p hp hb1
  have hsl := extendSetMaybe_setLength v p hp hb1
  have hidx : p / 64 < (extendSetMaybe v p).set.length :=
    lt_of_lt_of_le (div_lt_wordsNeeded p (p + 1) (by omega) (by omega)) hsl.1
  unfold Set
  dsimp only
  rw [if_pos (by rw [shiftRight_six]; exact hidx)]
  refine ⟨_, rfl, hlen, ?_, ?_⟩
  · show wordsNeeded (p + 1) ≤ ((extendSetMaybe v p).set.set _ _).length
    rw [List.length_set]
    exact hsl.1
  · intro k
    show bitAt ((extendSetMaybe v p).set.set (p >>> log2WordSize)
      ((extendSetMaybe v p).set.getD (p >>> log2WordSize) 0 |||
        1 <<< (p &&& (wordSize - 1)))) k = _
    rw [shiftRight_six, bitAt_or_update _ p k hidx,
      bitAt_congr _ v.set (extendSetMaybe_getD v p hp) k]

theorem Set_none_at_uintMax (v : BitSet) (hlen : v.length < uintMax)
    (hsmall : v.set.length ≤ uintMax >>> log2WordSize) :
    Set v uintMax = none := by
  have hesm : extendSetMaybe v uintMax = ⟨0, v.set⟩ := by
    unfold extendSetMaybe
    rw [if_pos (show uintMax ≥ v.length from by omega)]
    dsimp only
    rw [show (uintMax + 1) % 2 ^ 64 = 0 from by unfold uintMax; omega,
      show wordsNeeded 0 = 0 from rfl, if_neg (by omega)]
  unfold Set
  rw [hesm]
  dsimp only
  rw [if_neg (by omega)]

/-- C5 counterexample: the claim says `Set(p)` never fails for every
`p ≥ v.Len()`, but at `p = Cap() = ^uint(0)` the source wraps `i + 1` to 0 in
`extendSetMaybe` (zeroing the length and growing nothing) and then panics on
the out-of-range word write — the panic the repository's own `TestExceedCap`
demands.  Evaluated on the well-formed 10-bit vector with bit 5 set. -/
theorem set_at_cap_counterexample :
    bit5of10.length ≤ uintMax ∧ WF bit5of10 ∧
      Set bit5of10 uintMax = none ∧
      (extendSetMaybe bit5of10 uintMax).length = 0 := by decide

/-- C5 (amended): writes auto-grow and never fail below the overflow fringe.
For `v.Len() ≤ p` with `p + 65 ≤ 2^64` (below the `i + 1` wrap and the
`wordsNeeded` clamp), `Set v p` succeeds, yields length `p+1` and storage of
at least `ceil((p+1)/64)` words, preserves every previously set bit and makes
`Test p` true; `Flip v p` is exactly `Set v p`.  At `p = Cap() = ^uint(0)`
the source instead panics (`TestExceedCap`), provided the storage is within
machine limits. -/
theorem set_autogrows_below_clamp (v : BitSet) (p : Nat) (hp : v.length ≤ p)
    (hb : p + 65 ≤ 2 ^ 64) :
    (∃ w, Set v p = some w ∧ w.length = p + 1 ∧
        wordsNeeded (p + 1) ≤ w.set.length ∧
        (∀ j, Test v j = true → Test w j = true) ∧
        Test w p = true) ∧
      Flip v p = Set v p ∧
      (v.set.length ≤ uintMax >>> log2WordSize → Set v uintMax = none) := by
  obtain ⟨w, hsw, hwl, hwsl, hbit⟩ := Set_some_of_ge v p hp hb
  refine ⟨⟨w, hsw, hwl, hwsl, ?_, ?_⟩, ?_, ?_⟩
  · intro j hj
    have hjl : j < v.length := by
      by_contra hc
      rw [Test_of_ge v j (by omega)] at hj
      exact Bool.false_ne_true hj
    rw [Test_eq_bitAt w j (by rw [hwl]; omega), hbit j,
      ← Test_eq_bitAt v j hjl, hj]
    rfl
  · rw [Test_eq_bitAt w p (by rw [hwl]; omega), hbit p]
    simp
  · unfold Flip
    rw [if_pos hp]
  · intro hsmall
    exact Set_none_at_uintMax v (by unfold uintMax; omega) hsmall

/-- C5 witness: `Set` at position 100 on the 10-bit vector with bit 5 set. -/
theorem set_autogrows_below_clamp_witness :
    bit5of10.length ≤ 100 ∧ 100 + 65 ≤ 2 ^ 64 ∧
      ((∃ w, Set bit5of10 100 = some w ∧ w.length = 101 ∧
          wordsNeeded 101 ≤ w.set.length ∧
          (∀ j, Test bit5of10 j = true → Test w j = true) ∧
          Test w 100 = true) ∧
        Flip bit5of10 100 = Set bit5of10 100 ∧
        (bit5of10.set.length ≤ uintMax >>> log2WordSize →
          Set bit5of10 uintMax = none)) :=
  ⟨by decide, by decide,
   set_autogrows_below_clamp bit5of10 100 (by decide) (by decide)⟩

theorem getD_append_lt (l1 l2 : List Nat) (k : Nat) (h : k < l1.length) :
    (l1 ++ l2).getD k 0 = l1.getD k 0 := by
  rw [List.getD_eq_getElem?_getD, List.getD_eq_getElem?_getD, List.getElem?_append,
    if_pos h]

theorem getD_append_ge (l1 l2 : List Nat) (k : Nat) (h : l1.length ≤ k) :
    (l1 ++ l2).getD k 0 = l2.getD (k - l1.length) 0 := by
  rw [List.getD_eq_getElem?_getD, List.getD_eq_getElem?_getD, List.getElem?_append,
    if_neg (by omega)]

theorem getD_drop (l : List Nat) (n k : Nat) :
    (l.drop n).getD k 0 = l.getD (n + k) 0 := by
  rw [List.getD_eq_getElem?_getD, List.getD_eq_getElem?_getD, List.getElem?_drop]

theorem getD_take_lt (l : List Nat) (n k : Nat) (h : k < n) :
    (l.take n).getD k 0 = l.getD k 0 := by
  rw [List.getD_eq_getElem?_getD, List.getD_eq_getElem?_getD, List.getElem?_take]
  rw [if_pos h]

theorem getD_zipWith (f : Nat → Nat → Nat) (l1 l2 : List Nat) (k : Nat)
    (h1 : k < l1.length) (h2 : k < l2.length) :
    (List.zipWith f l1 l2).getD k 0 = f (l1.getD k 0) (l2.getD k 0) := by
  rw [List.getD_eq_getElem?_getD, List.getD_eq_getElem?_getD, List.getD_eq_getElem?_getD,
    List.getElem?_zipWith, List.getElem?_eq_getElem h1, List.getElem?_eq_getElem h2]
  rfl

theorem getD_replicate_zero (n k : Nat) : (List.replicate n (0 : Nat)).getD k 0 = 0 := by
  rw [List.getD_eq_getElem?_getD, List.getElem?_replicate]
  split <;> rfl

theorem wordsNeeded_mono (i j : Nat) (hij : i ≤ j) (hj : j + 64 ≤ 2 ^ 64) :
    wordsNeeded i ≤ wordsNeeded j := by
  rw [wordsNeeded_eq i (by omega), wordsNeeded_eq j hj]
  omega

theorem Set_some_of_lt (v : BitSet) (i : Nat) (h : i < v.length)
    (hidx : i / 64 < v.set.length) :
    ∃ w, Set v i = some w ∧ w.length = v.length ∧
      ∀ k, bitAt w.set k = (bitAt v.set k || decide (k = i)) := by
  unfold Set extendSetMaybe
  rw [if_neg (show ¬ i ≥ v.length from by omega)]
  dsimp only
  rw [if_pos (by rw [shiftRight_six]; exact hidx)]
  refine ⟨_, rfl, rfl, ?_⟩
  intro k
  show bitAt (v.set.set (i >>> log2WordSize)
    (v.set.getD (i >>> log2WordSize) 0 ||| 1 <<< (i &&& (wordSize - 1)))) k = _
  rw [shiftRight_six]
  exact bitAt_or_update v.set i k hidx

theorem testBit_allBits (r : Nat) (h : r < 64) : allBits.testBit r = true := by
  have he : allBits = 2 ^ 64 - 1 := by norm_num [allBits]
  rw [he, Nat.testBit_two_pow_sub_one]
  simpa using h

theorem bitAt_andNot_update (ws : List Nat) (p i : Nat) (h : p / 64 < ws.length) :
    bitAt (ws.set (p / 64)
        (andNot (ws.getD (p / 64) 0) (1 <<< (p &&& (wordSize - 1))))) i
      = (bitAt ws i && !(decide (i = p))) := by
  rw [and_sixtyThree]
  unfold bitAt andNot
  have h1 : 1 <<< (p % 64) = 2 ^ (p % 64) := by rw [Nat.shiftLeft_eq, one_mul]
  by_cases hq : i / 64 = p / 64
  · rw [hq, getD_set_self _ _ _ h, Nat.testBit_and, Nat.testBit_xor, h1,
      testBit_allBits _ (Nat.mod_lt _ (by norm_num))]
    by_cases hip : i % 64 = p % 64
    · have hip2 : i = p := by omega
      simp [hip2, Nat.testBit_two_pow_self]
    · have hne : i ≠ p := by omega
      have hbit : (2 ^ (p % 64)).testBit (i % 64) = false :=
        Nat.testBit_two_pow_of_ne (fun hh => hip (by omega))
      simp [hne, hbit]
  · rw [getD_set_ne _ _ _ _ (fun hh => hq hh.symm)]
    have hne : i ≠ p := fun hh => hq (by rw [hh])
    simp [hne]

theorem bitAt_xor_update (ws : List Nat) (p i : Nat) (h : p / 64 < ws.length) :
    bitAt (ws.set (p / 64)
        (ws.getD (p / 64) 0 ^^^ 1 <<< (p &&& (wordSize - 1)))) i
      = (xor (bitAt ws i) (decide (i = p))) := by
  rw [and_sixtyThree]
  unfold bitAt
  have h1 : 1 <<< (p % 64) = 2 ^ (p % 64) := by rw [Nat.shiftLeft_eq, one_mul]
  by_cases hq : i / 64 = p / 64
  · rw [hq, getD_set_self _ _ _ h, Nat.testBit_xor, h1]
    by_cases hip : i % 64 = p % 64
    · have hip2 : i = p := by omega
      simp [hip2, Nat.testBit_two_pow_self]
    · have hne : i ≠ p := by omega
      have hbit : (2 ^ (p % 64)).testBit (i % 64) = false :=
        Nat.testBit_two_pow_of_ne (fun hh => hip (by omega))
      simp [hne, hbit]
  · rw [getD_set_ne _ _ _ _ (fun hh => hq hh.symm)]
    have hne : i ≠ p := fun hh => hq (by rw [hh])
    simp [hne]

theorem Test_Set_frame (v : BitSet) (hwf : WF v) (i j : Nat) (hne : j ≠ i)
    (hb : i + 65 ≤ 2 ^ 64) :
    ∃ w, Set v i = some w ∧ Test w j = Test v j := by
  obtain ⟨hsl, hlb, _, htc⟩ := hwf
  by_cases hi : v.length ≤ i
  · obtain ⟨w, hsw, hwl, _, hbit⟩ := Set_some_of_ge v i hi hb
    refine ⟨w, hsw, ?_⟩
    have hb1 : bitAt w.set j = bitAt v.set j := by
      rw [hbit j]
      simp [hne]
    by_cases hj : j < v.length
    · rw [Test_eq_bitAt w j (by rw [hwl]; omega), hb1, Test_eq_bitAt v j hj]
    · rw [Test_of_ge v j (by omega)]
      by_cases hj2 : j < w.length
      · rw [Test_eq_bitAt w j hj2, hb1, htc j (by omega)]
      · rw [Test_of_ge w j (by omega)]
  · have hidx : i / 64 < v.set.length := by
      rw [hsl]
      exact div_lt_wordsNeeded i v.length (by omega) (by norm_num [wordSize] at hlb; omega)
    obtain ⟨w, hsw, hwl, hbit⟩ := Set_some_of_lt v i (by omega) hidx
    refine ⟨w, hsw, ?_⟩
    have hb1 : bitAt w.set j = bitAt v.set j := by
      rw [hbit j]
      simp [hne]
    by_cases hj : j < v.length
    · rw [Test_eq_bitAt w j (by rw [hwl]; omega), hb1, Test_eq_bitAt v j hj]
    · rw [Test_of_ge v j (by omega), Test_of_ge w j (by rw [hwl]; omega)]

theorem Test_Clear_frame (v : BitSet) (hwf : WF v) (i j : Nat) (hne : j ≠ i) :
    Test (Clear v i) j = Test v j := by
  obtain ⟨hsl, hlb, _, _⟩ := hwf
  unfold Clear
  split
  · rfl
  · rename_i hi
    have hidx : i / 64 < v.set.length := by
      rw [hsl]
      exact div_lt_wordsNeeded i v.length (by omega) (by norm_num [wordSize] at hlb; omega)
    by_cases hj : j < v.length
    · rw [Test_eq_bitAt _ j (by exact hj), Test_eq_bitAt v j hj]
      show bitAt (v.set.set (i >>> log2WordSize) _) j = bitAt v.set j
      rw [shiftRight_six, bitAt_andNot_update v.set i j hidx]
      simp [hne]
    · rw [Test_of_ge v j (by omega)]
      exact Test_of_ge _ j (show v.length ≤ j by omega)

theorem Test_Flip_frame (v : BitSet) (hwf : WF v) (i j : Nat) (hne : j ≠ i)
    (hb : i + 65 ≤ 2 ^ 64) :
    ∃ w, Flip v i = some w ∧ Test w j = Test v j := by
  unfold Flip
  split
  · rename_i hi
    exact Test_Set_frame v hwf i j hne hb
  · rename_i hi
    obtain ⟨hsl, hlb, _, _⟩ := hwf
    have hidx : i / 64 < v.set.length := by
      rw [hsl]
      exact div_lt_wordsNeeded i v.length (by omega) (by norm_num [wordSize] at hlb; omega)
    refine ⟨_, rfl, ?_⟩
    by_cases hj : j < v.length
    · rw [Test_eq_bitAt _ j (by exact hj), Test_eq_bitAt v j hj]
      show bitAt (v.set.set (i >>> log2WordSize) _) j = bitAt v.set j
      rw [shiftRight_six, bitAt_xor_update v.set i j hidx]
      simp [hne]
    · rw [Test_of_ge v j (by omega)]
      exact Test_of_ge _ j (show v.length ≤ j by omega)

/-- C10 counterexample: at `i = Cap() = ^uint(0)` and `j = 5` on the
well-formed 10-bit vector with bit 5 set, `Set(i)` wraps the length to 0 in
`extendSetMaybe` before the out-of-range word write panics (the repository's
`TestExceedCap` input): the panic surfaces (`none`), and the receiver state Go
leaves behind after `recover()` reads `Test(5) = false` where it read `true`
before — the mutation at `i` did change position `j`. -/
theorem set_wraps_length_at_cap_counterexample :
    uintMax ≠ 5 ∧ WF bit5of10 ∧ Test bit5of10 5 = true ∧
      Set bit5of10 uintMax = none ∧
      Test (extendSetMaybe bit5of10 uintMax) 5 = false := by decide

/-- C10 (amended): single-bit mutations have no side effect on other
positions below the overflow fringe.  For a well-formed `v` and indices
`i ≠ j` with `i + 65 ≤ 2^64` (below the `i + 1` wrap and the `wordsNeeded`
clamp), `Set`, `Clear`, `SetTo` and `Flip` at `i` succeed and leave `Test j`
unchanged, including when `Set`/`Flip` at `i ≥ v.Len()` grow and reallocate
the backing storage; at `i = Cap()` the source instead panics after zeroing
the length, so previously set positions read false afterwards. -/
theorem single_bit_mutations_frame_below_cap (v : BitSet) (hwf : WF v)
    (i j : Nat) (hne : i ≠ j) (hb : i + 65 ≤ 2 ^ 64) :
    (∃ w, Set v i = some w ∧ Test w j = Test v j) ∧
      Test (Clear v i) j = Test v j ∧
      (∀ value, ∃ w, SetTo v i value = some w ∧ Test w j = Test v j) ∧
      (∃ w, Flip v i = some w ∧ Test w j = Test v j) := by
  have hne2 : j ≠ i := fun hh => hne hh.symm
  refine ⟨Test_Set_frame v hwf i j hne2 hb, Test_Clear_frame v hwf i j hne2, ?_,
    Test_Flip_frame v hwf i j hne2 hb⟩
  intro value
  cases value
  · exact ⟨Clear v i, rfl, Test_Clear_frame v hwf i j hne2⟩
  · exact Test_Set_frame v hwf i j hne2 hb

/-- C10 witness: mutations at position 70 (a growth-triggering position)
leave position 5 unchanged on the concrete 10-bit vector with bit 5 set. -/
theorem single_bit_mutations_frame_below_cap_witness :
    WF bit5of10 ∧ (70 : Nat) ≠ 5 ∧ 70 + 65 ≤ 2 ^ 64 ∧
      ((∃ w, Set bit5of10 70 = some w ∧ Test w 5 = Test bit5of10 5) ∧
        Test (Clear bit5of10 70) 5 = Test bit5of10 5 ∧
        (∀ value, ∃ w, SetTo bit5of10 70 value = some w ∧
          Test w 5 = Test bit5of10 5) ∧
        (∃ w, Flip bit5of10 70 = some w ∧ Test w 5 = Test bit5of10 5)) :=
  ⟨by decide, by decide, by decide,
   single_bit_mutations_frame_below_cap bit5of10 (by decide) 70 5 (by decide)
     (by decide)⟩

theorem goCopy_of_eq (dst src : List Nat) (h : src.length = dst.length) :
    goCopy dst src = src := by
  rw [goCopy_of_ge dst src (by omega), List.drop_of_length_le (by omega),
    List.append_nil]

theorem sortByLength_cases (a b : BitSet) :
    (a.length ≤ b.length ∧ sortByLength a b = (a, b)) ∨
      (b.length ≤ a.length ∧ sortByLength a b = (b, a)) := by
  unfold sortByLength
  by_cases h : a.length ≤ b.length
  · rw [if_pos h]
    exact Or.inl ⟨h, rfl⟩
  · rw [if_neg h]
    exact Or.inr ⟨by omega, rfl⟩

theorem Test_mk_lt (L : Nat) (ws : List Nat) (i : Nat) (h : i < L) :
    Test (BitSet.mk L ws) i = bitAt ws i := Test_eq_bitAt _ i h

theorem length_bound (b : BitSet) (h : WF b) : b.length + 64 ≤ 2 ^ 64 := by
  have := h.2.1
  norm_num [wordSize] at this
  omega

theorem bitAt_of_ge_length (b : BitSet) (h : WF b) (i : Nat)
    (hi : 64 * b.set.length ≤ i ∨ b.length ≤ i) : bitAt b.set i = false := by
  have hlb := length_bound b h
  obtain ⟨h1, _, _, h4⟩ := h
  rcases hi with hi | hi
  · apply h4
    have := le_mul_wordsNeeded b.length hlb
    rw [← h1] at this
    omega
  · exact h4 i hi

theorem bitAt_combine_sorted (s l : BitSet) (hs : WF s) (hl : WF l)
    (hsl : s.length ≤ l.length) (f : Nat → Nat → Nat) (g : Bool → Bool → Bool)
    (hfg : ∀ x y k, (f x y).testBit k = g (x.testBit k) (y.testBit k))
    (hg : ∀ c, g false c = c) (i : Nat) :
    bitAt (goCopy (Clone l).set (List.zipWith f s.set l.set)) i
      = g (bitAt s.set i) (bitAt l.set i) := by
  have hns : s.set.length ≤ l.set.length := by
    rw [hs.1, hl.1]
    exact wordsNeeded_mono _ _ hsl (length_bound l hl)
  rw [Clone_set l hl.1]
  have hzlen : (List.zipWith f s.set l.set).length = s.set.length := by
    rw [List.length_zipWith]
    omega
  rw [goCopy_of_ge _ _ (by rw [hzlen]; exact hns)]
  by_cases hk : i / 64 < s.set.length
  · unfold bitAt
    rw [getD_append_lt _ _ _ (by rw [hzlen]; exact hk),
      getD_zipWith f _ _ _ hk (lt_of_lt_of_le hk hns), hfg]
  · have hidx : s.set.length + (i / 64 - s.set.length) = i / 64 := by omega
    have hsi : bitAt s.set i = false :=
      bitAt_of_ge_length s hs i (Or.inl (by omega))
    unfold bitAt at hsi ⊢
    rw [getD_append_ge _ _ _ (by rw [hzlen]; omega), hzlen, getD_drop, hidx, hsi, hg]

theorem Union_spec (a b : BitSet) (ha : WF a) (hb : WF b) :
    (Union a b).length = max a.length b.length ∧
      ∀ i, i < (Union a b).length → Test (Union a b) i = (Test a i || Test b i) := by
  unfold Union
  rcases sortByLength_cases a b with ⟨hab, heq⟩ | ⟨hab, heq⟩ <;> rw [heq] <;> dsimp only
  · refine ⟨by show b.length = _; omega, fun i hi => ?_⟩
    rw [Test_mk_lt _ _ i hi,
      bitAt_combine_sorted a b ha hb hab _ (· || ·) Nat.testBit_or
        (fun c => Bool.false_or c) i,
      ← Test_eq_bitAt_of_tailClean a ha.2.2.2 i, ← Test_eq_bitAt_of_tailClean b hb.2.2.2 i]
  · refine ⟨by show a.length = _; omega, fun i hi => ?_⟩
    rw [Test_mk_lt _ _ i hi,
      bitAt_combine_sorted b a hb ha hab _ (· || ·) Nat.testBit_or
        (fun c => Bool.false_or c) i,
      ← Test_eq_bitAt_of_tailClean a ha.2.2.2 i, ← Test_eq_bitAt_of_tailClean b hb.2.2.2 i,
      Bool.or_comm]

theorem SymmetricDifference_spec (a b : BitSet) (ha : WF a) (hb : WF b) :
    (SymmetricDifference a b).length = max a.length b.length ∧
      ∀ i, i < (SymmetricDifference a b).length →
        Test (SymmetricDifference a b) i = (Test a i != Test b i) := by
  have hbne : ∀ x y : Bool, (x != y) = xor x y := by decide
  unfold SymmetricDifference
  rcases sortByLength_cases a b with ⟨hab, heq⟩ | ⟨hab, heq⟩ <;> rw [heq] <;> dsimp only
  · refine ⟨by show b.length = _; omega, fun i hi => ?_⟩
    rw [Test_mk_lt _ _ i hi,
      bitAt_combine_sorted a b ha hb hab _ xor Nat.testBit_xor
        (fun c => Bool.false_xor c) i,
      ← Test_eq_bitAt_of_tailClean a ha.2.2.2 i, ← Test_eq_bitAt_of_tailClean b hb.2.2.2 i,
      hbne]
  · refine ⟨by show a.length = _; omega, fun i hi => ?_⟩
    rw [Test_mk_lt _ _ i hi,
      bitAt_combine_sorted b a hb ha hab _ xor Nat.testBit_xor
        (fun c => Bool.false_xor c) i,
      ← Test_eq_bitAt_of_tailClean a ha.2.2.2 i, ← Test_eq_bitAt_of_tailClean b hb.2.2.2 i,
      hbne, Bool.xor_comm]

theorem Intersection_bitAt_sorted (s l : BitSet) (hs : WF s) (hl : WF l)
    (hsl : s.length ≤ l.length) (i : Nat) (hi : i < s.length) :
    bitAt (goCopy (List.replicate (wordsNeeded s.length) 0)
        (List.zipWith (fun w v => w &&& v) s.set l.set)) i
      = (bitAt s.set i && bitAt l.set i) := by
  have hns : s.set.length ≤ l.set.length := by
    rw [hs.1, hl.1]
    exact wordsNeeded_mono _ _ hsl (length_bound l hl)
  have hzlen : (List.zipWith (fun w v : Nat => w &&& v) s.set l.set).length
      = s.set.length := by
    rw [List.length_zipWith]
    omega
  rw [goCopy_of_eq _ _ (by rw [hzlen, hs.1, List.length_replicate])]
  have hk : i / 64 < s.set.length := by
    rw [hs.1]
    exact div_lt_wordsNeeded i s.length hi (length_bound s hs)
  unfold bitAt
  rw [getD_zipWith _ _ _ _ hk (lt_of_lt_of_le hk hns), Nat.testBit_and]

theorem Intersection_spec (a b : BitSet) (ha : WF a) (hb : WF b) :
    (Intersection a b).length = min a.length b.length ∧
      ∀ i, i < (Intersection a b).length →
        Test (Intersection a b) i = (Test a i && Test b i) := by
  unfold Intersection
  rcases sortByLength_cases a b with ⟨hab, heq⟩ | ⟨hab, heq⟩ <;> rw [heq] <;> dsimp only
  · refine ⟨by show a.length = _; omega, fun i hi => ?_⟩
    rw [Test_mk_lt _ _ i hi,
      Intersection_bitAt_sorted a b ha hb hab i hi,
      ← Test_eq_bitAt_of_tailClean a ha.2.2.2 i, ← Test_eq_bitAt_of_tailClean b hb.2.2.2 i]
  · refine ⟨by show b.length = _; omega, fun i hi => ?_⟩
    rw [Test_mk_lt _ _ i hi,
      Intersection_bitAt_sorted b a hb ha hab i hi,
      ← Test_eq_bitAt_of_tailClean a ha.2.2.2 i, ← Test_eq_bitAt_of_tailClean b hb.2.2.2 i,
      Bool.and_comm]

theorem testBit_andNot (x y k : Nat) (hk : k < 64) :
    (andNot x y).testBit k = (x.testBit k && !(y.testBit k)) := by
  unfold andNot
  rw [Nat.testBit_and, Nat.testBit_xor, testBit_allBits k hk, Bool.true_xor]

theorem Difference_spec (a b : BitSet) (ha : WF a) (hb : WF b) :
    (Difference a b).length = a.length ∧
      ∀ i, i < (Difference a b).length →
        Test (Difference a b) i = (Test a i && !(Test b i)) := by
  unfold Difference
  dsimp only
  refine ⟨rfl, fun i hi => ?_⟩
  have hi2 : i < a.length := hi
  have hl1 : min (wordCount b) (wordCount a) ≤ a.set.length := by
    rw [ha.1]
    unfold wordCount
    omega
  have hl2 : min (wordCount b) (wordCount a) ≤ b.set.length := by
    rw [hb.1]
    unfold wordCount
    omega
  have htake1 : (a.set.take (min (wordCount b) (wordCount a))).length
      = min (wordCount b) (wordCount a) := by
    rw [List.length_take]
    omega
  have htake2 : (b.set.take (min (wordCount b) (wordCount a))).length
      = min (wordCount b) (wordCount a) := by
    rw [List.length_take]
    omega
  have hzlen : (List.zipWith andNot (a.set.take (min (wordCount b) (wordCount a)))
      (b.set.take (min (wordCount b) (wordCount a)))).length
        = min (wordCount b) (wordCount a) := by
    rw [List.length_zipWith]
    omega
  rw [Test_mk_lt _ _ i hi, Clone_set a ha.1]
  rw [goCopy_of_ge _ _ (by rw [hzlen]; exact hl1)]
  have hka : i / 64 < a.set.length := by
    rw [ha.1]
    exact div_lt_wordsNeeded i a.length hi2 (length_bound a ha)
  by_cases hk : i / 64 < min (wordCount b) (wordCount a)
  · unfold bitAt
    rw [getD_append_lt _ _ _ (by rw [hzlen]; exact hk),
      getD_zipWith _ _ _ _ (by rw [htake1]; exact hk) (by rw [htake2]; exact hk),
      getD_take_lt _ _ _ hk, getD_take_lt _ _ _ hk,
      testBit_andNot _ _ _ (Nat.mod_lt _ (by norm_num))]
    show ((bitAt a.set i) && !(bitAt b.set i)) = _
    rw [← Test_eq_bitAt a i hi2, ← Test_eq_bitAt_of_tailClean b hb.2.2.2 i]
  · have hmin : min (wordCount b) (wordCount a) = wordCount b := by
      unfold wordCount at hka hk ⊢
      rw [ha.1] at hka
      omega
    have hbf : Test b i = false := by
      apply Test_of_ge
      have h1 := le_mul_wordsNeeded b.length (length_bound b hb)
      unfold wordCount at hmin hk
      omega
    have hidx : min (wordCount b) (wordCount a)
        + (i / 64 - min (wordCount b) (wordCount a)) = i / 64 := by omega
    unfold bitAt
    rw [getD_append_ge _ _ _ (by rw [hzlen]; omega), hzlen, getD_drop, hidx, hbf]
    rw [show ((a.set.getD (i / 64) 0).testBit (i % 64)) = bitAt a.set i from rfl,
      ← Test_eq_bitAt a i hi2]
    simp

/-- C4: result lengths and pointwise laws of the functional set algebra.  For
well-formed operands, Union and SymmetricDifference size the result to the
longer operand, Intersection to the shorter, Difference to the receiver, and
within the result's declared length the bits are pointwise or / and /
and-not / xor of the operands' `Test` views (positions beyond an operand's
own length reading as false). -/
theorem setAlgebra_lengths_and_pointwise (a b : BitSet) (ha : WF a) (hb : WF b) :
    (Union a b).length = max a.length b.length ∧
      (SymmetricDifference a b).length = max a.length b.length ∧
      (Intersection a b).length = min a.length b.length ∧
      (Difference a b).length = a.length ∧
      (∀ i, i < (Union a b).length → Test (Union a b) i = (Test a i || Test b i)) ∧
      (∀ i, i < (Intersection a b).length →
        Test (Intersection a b) i = (Test a i && Test b i)) ∧
      (∀ i, i < (Difference a b).length →
        Test (Difference a b) i = (Test a i && !(Test b i))) ∧
      (∀ i, i < (SymmetricDifference a b).length →
        Test (SymmetricDifference a b) i = (Test a i != Test b i)) :=
  ⟨(Union_spec a b ha hb).1, (SymmetricDifference_spec a b ha hb).1,
   (Intersection_spec a b ha hb).1, (Difference_spec a b ha hb).1,
   (Union_spec a b ha hb).2, (Intersection_spec a b ha hb).2,
   (Difference_spec a b ha hb).2, (SymmetricDifference_spec a b ha hb).2⟩

/-- C4 witness: the algebra laws instantiated at two concrete well-formed
vectors of lengths 70 and 10. -/
theorem setAlgebra_lengths_and_pointwise_witness :
    WF sample70 ∧ WF sample10 ∧
      ((Union sample70 sample10).length = max sample70.length sample10.length ∧
        (SymmetricDifference sample70 sample10).length
          = max sample70.length sample10.length ∧
        (Intersection sample70 sample10).length
          = min sample70.length sample10.length ∧
        (Difference sample70 sample10).length = sample70.length ∧
        (∀ i, i < (Union sample70 sample10).length →
          Test (Union sample70 sample10) i = (Test sample70 i || Test sample10 i)) ∧
        (∀ i, i < (Intersection sample70 sample10).length →
          Test (Intersection sample70 sample10) i
            = (Test sample70 i && Test sample10 i)) ∧
        (∀ i, i < (Difference sample70 sample10).length →
          Test (Difference sample70 sample10) i
            = (Test sample70 i && !(Test sample10 i))) ∧
        (∀ i, i < (SymmetricDifference sample70 sample10).length →
          Test (SymmetricDifference sample70 sample10) i
            = (Test sample70 i != Test sample10 i))) :=
  ⟨by decide, by decide,
   setAlgebra_lengths_and_pointwise sample70 sample10 (by decide) (by decide)⟩

/-- C9: every read-only query is total on the zero-value BitSet (length 0,
nil word slice) and treats it as the empty set: for every i, `Test i` is
false, `NextSet i` and `NextClear i` return `(0, false)`, and `Count` is 0. -/
theorem zeroValue_reads_as_empty :
    (∀ i : Nat, Test ⟨0, []⟩ i = false ∧ NextSet ⟨0, []⟩ i = (0, false) ∧
      NextClear ⟨0, []⟩ i = (0, false)) ∧ Count ⟨0, []⟩ = 0 := by
  refine ⟨fun i => ⟨?_, ?_, ?_⟩, rfl⟩
  · simp [Test]
  · simp [NextSet]
  · simp [NextClear]

/-- C1: the claim says `NextClear` confines its search to `[0, length)` and
that a length-100 vector with all 100 bits set yields `NextClear(0) = (0,
false)`.  The code does not compare against `length`: on that tail-clean
vector it finds the conceptually-zero storage bit at position 100 = `Len` and
returns `(100, true)`, contradicting both the claim and the repository's own
`TestNextClear`. -/
theorem nextClear_escapes_length :
    WF allSet100 ∧ (∀ i, i < 100 → Test allSet100 i = true) ∧
      NextClear allSet100 0 = (100, true) ∧ Len allSet100 = 100 := by decide

/-- C2: the claim says `Copy` masks the partial final word of the destination
so storage bits at positions `≥ c.Len()` are not disturbed.  The code copies
whole words without masking: copying the all-set 16-bit vector into the fresh
1-bit destination `New 1` leaves the destination word `0xFFFF`, with storage
bits 1..15 (all `≥ Len = 1`) set, so the destination is no longer tail-clean
and its `Count` is 16 — exactly the violation the repository's own
`TestCopyUnaligned` checks for (the returned count `min(b.Len, c.Len) = 1` is
the only part the code gets right). -/
theorem copy_disturbs_destination_tail :
    WF allSet16 ∧ WF (New 1) ∧
      Copy allSet16 (New 1) = (⟨1, [0xFFFF]⟩, 1) ∧
      ¬ TailClean (Copy allSet16 (New 1)).1 ∧
      Count (Copy allSet16 (New 1)).1 = 16 := by decide

/-- C3: the claim says tail cleanliness is preserved by every mutating
operation, including `Copy` on the destination.  Copying the well-formed
32-bit vector with bits {0,3,4,16,17,29,31} into the well-formed 19-bit
destination `New 19` copies the whole word, leaving storage bits 29 and 31
(both `≥ 19`) set: the destination no longer satisfies the invariant (the
repository's own `TestCopyUnaligned` expects count 5 here, not 7). -/
theorem copy_breaks_tailClean_invariant :
    WF mixed32 ∧ WF (New 19) ∧
      ¬ TailClean (Copy mixed32 (New 19)).1 ∧ ¬ WF (Copy mixed32 (New 19)).1 ∧
      bitAt (Copy mixed32 (New 19)).1.set 29 = true ∧
      (Copy mixed32 (New 19)).1.length = 19 ∧
      Count (Copy mixed32 (New 19)).1 = 7 := by decide

/-! Serialization proofs. -/

theorem Except_bind_ok {e a b : Type} (x : a) (f : a → Except e b) :
    (Except.ok x >>= f) = f x := rfl

theorem Except_bind_error {e a b : Type} (err : e) (f : a → Except e b) :
    ((Except.error err : Except e a) >>= f) = Except.error err := rfl

theorem readFull_ok (stream : List Nat) (n : Nat) (h : n ≤ stream.length) :
    readFull stream n = .ok (stream.take n, stream.drop n) := by
  unfold readFull
  rw [if_pos h]

theorem readFull_short (stream : List Nat) (n : Nat) (h : stream.length < n) :
    readFull stream n
      = .error (if stream.length = 0 then SerErr.eof else SerErr.unexpectedEOF) := by
  unfold readFull
  rw [if_neg (by omega)]
  by_cases h0 : stream.length = 0
  · rw [if_pos h0, if_pos (by simpa using h0)]
  · rw [if_neg h0, if_neg (by simpa using h0)]

/-- C7 counterexample: the stream that delivers exactly the 8-byte header
declaring length 64 (one storage word) and then ends is truncated, yet
`ReadFrom` surfaces `io.EOF` (the error `binary.Read`/`io.ReadFull` return
when no payload byte was read), not an `UnexpectedEOF`-class error. -/
theorem readFrom_truncation_eof_counterexample :
    (be64 64).length = 8 ∧ 0 < wordsNeeded (rd64 (be64 64)) ∧
      ReadFrom (be64 64) = .error SerErr.eof ∧
      SerErr.eof ≠ SerErr.unexpectedEOF :=
  ⟨by decide, by decide, by rfl, by decide⟩

/-- C7 (amended): for every stream made of a full 8-byte header declaring
`n > 0` storage words followed by fewer than `8 n` bytes, `ReadFrom` returns
an error — `io.ErrUnexpectedEOF` when at least one payload byte arrived and
`io.EOF` when none did — never silently zero-fills, and the receiver is left
unchanged. -/
theorem readFrom_truncation_errors (header rest : List Nat) (b : BitSet)
    (hh : header.length = 8) (hn : 0 < wordsNeeded (rd64 header))
    (htr : rest.length < 8 * wordsNeeded (rd64 header)) :
    ReadFrom (header ++ rest)
        = .error (if rest.length = 0 then SerErr.eof else SerErr.unexpectedEOF) ∧
      readFromInto b (header ++ rest)
        = (b, some (if rest.length = 0 then SerErr.eof else SerErr.unexpectedEOF)) := by
  have hmain : ReadFrom (header ++ rest)
      = .error (if rest.length = 0 then SerErr.eof else SerErr.unexpectedEOF) := by
    unfold ReadFrom
    rw [readFull_ok _ 8 (by rw [List.length_append]; omega), Except_bind_ok]
    rw [show (header ++ rest).take 8 = header by rw [← hh, List.take_left]]
    rw [show (header ++ rest).drop 8 = rest by rw [← hh, List.drop_left]]
    dsimp only
    rw [readFull_short _ _ (by omega), Except_bind_error]
  exact ⟨hmain, by unfold readFromInto; rw [hmain]⟩

/-- C7 witness: truncation with three stray payload bytes after a header
declaring one word yields `ErrUnexpectedEOF` and leaves the receiver
`⟨5, [7]⟩` unchanged. -/
theorem readFrom_truncation_errors_witness :
    (be64 64).length = 8 ∧ 0 < wordsNeeded (rd64 (be64 64)) ∧
      ([0, 1, 2] : List Nat).length < 8 * wordsNeeded (rd64 (be64 64)) ∧
      (ReadFrom (be64 64 ++ [0, 1, 2])
          = .error (if ([0, 1, 2] : List Nat).length = 0 then SerErr.eof
            else SerErr.unexpectedEOF) ∧
        readFromInto ⟨5, [7]⟩ (be64 64 ++ [0, 1, 2])
          = (⟨5, [7]⟩, some (if ([0, 1, 2] : List Nat).length = 0 then SerErr.eof
            else SerErr.unexpectedEOF))) :=
  ⟨by decide, by decide, by decide,
   readFrom_truncation_errors (be64 64) [0, 1, 2] ⟨5, [7]⟩ (by decide) (by decide)
     (by decide)⟩

theorem b64Val_b64Char_all : ∀ k, k < 64 → b64Val (b64Char k) = some k := by decide

theorem b64Val_b64Char (k : Nat) (h : k < 64) : b64Val (b64Char k) = some k :=
  b64Val_b64Char_all k h

theorem b64Char_ne_pad (k : Nat) : b64Char k ≠ 61 := by
  unfold b64Char
  split
  · omega
  · split
    · omega
    · split
      · omega
      · split <;> omega

theorem b64_roundtrip (bytes : List Nat) (h : ∀ x ∈ bytes, x < 256) :
    b64Decode (b64Encode bytes) = some bytes := by
  induction bytes using b64Encode.induct with
  | case1 => rfl
  | case2 b0 =>
    have hb0 : b0 < 256 := h b0 (by simp)
    unfold b64Encode b64Decode
    rw [b64Val_b64Char _ (by omega), b64Val_b64Char _ (by omega)]
    simp only [Option.bind_eq_bind, Option.some_bind]
    rw [if_pos (by simp)]
    have heq : b0 / 4 * 4 + b0 % 4 * 16 / 16 = b0 := by omega
    rw [heq]
    rfl
  | case3 b0 b1 =>
    have hb0 : b0 < 256 := h b0 (by simp)
    have hb1 : b1 < 256 := h b1 (by simp)
    unfold b64Encode b64Decode
    rw [b64Val_b64Char _ (by omega), b64Val_b64Char _ (by omega)]
    simp only [Option.bind_eq_bind, Option.some_bind]
    rw [if_neg (by intro hc; exact b64Char_ne_pad _ hc.1)]
    rw [b64Val_b64Char _ (by omega)]
    simp only [Option.some_bind]
    rw [if_pos (by simp)]
    have h1 : b0 / 4 * 4 + (b0 % 4 * 16 + b1 / 16) / 16 = b0 := by omega
    have h2 : (b0 % 4 * 16 + b1 / 16) % 16 * 16 + b1 % 16 * 4 / 4 = b1 := by omega
    rw [h1, h2]
    rfl
  | case4 b0 b1 b2 rest ih =>
    have hb0 : b0 < 256 := h b0 (by simp)
    have hb1 : b1 < 256 := h b1 (by simp)
    have hb2 : b2 < 256 := h b2 (by simp)
    have hrest : ∀ x ∈ rest, x < 256 := fun x hx => h x (by simp [hx])
    unfold b64Encode b64Decode
    rw [b64Val_b64Char _ (by omega), b64Val_b64Char _ (by omega)]
    simp only [Option.bind_eq_bind, Option.some_bind]
    rw [if_neg (by intro hc; exact b64Char_ne_pad _ hc.1)]
    rw [b64Val_b64Char _ (by omega)]
    simp only [Option.some_bind]
    rw [if_neg (by intro hc; exact b64Char_ne_pad _ hc.1)]
    rw [b64Val_b64Char _ (by omega)]
    simp only [Option.some_bind]
    rw [show b64Decode (b64Encode rest) = some rest from ih hrest]
    simp only [Option.some_bind]
    have h1 : b0 / 4 * 4 + (b0 % 4 * 16 + b1 / 16) / 16 = b0 := by omega
    have h2 : (b0 % 4 * 16 + b1 / 16) % 16 * 16 + (b1 % 16 * 4 + b2 / 64) / 4 = b1 := by
      omega
    have h3 : (b1 % 16 * 4 + b2 / 64) % 4 * 64 + b2 % 64 = b2 := by omega
    rw [h1, h2, h3]
    rfl

theorem be64_mem_lt (y x : Nat) (h : x ∈ be64 y) : x < 256 := by
  simp [be64] at h
  rcases h with h | h | h | h | h | h | h | h <;> omega

theorem rd64_be64 (x : Nat) (h : x < 2 ^ 64) : rd64 (be64 x) = x := by
  unfold rd64 be64
  simp only [List.getD_cons_zero, List.getD_cons_succ]
  have e56 : x >>> 56 = x / 2 ^ 56 := Nat.shiftRight_eq_div_pow x 56
  have e48 : x >>> 48 = x / 2 ^ 48 := Nat.shiftRight_eq_div_pow x 48
  have e40 : x >>> 40 = x / 2 ^ 40 := Nat.shiftRight_eq_div_pow x 40
  have e32 : x >>> 32 = x / 2 ^ 32 := Nat.shiftRight_eq_div_pow x 32
  have e24 : x >>> 24 = x / 2 ^ 24 := Nat.shiftRight_eq_div_pow x 24
  have e16 : x >>> 16 = x / 2 ^ 16 := Nat.shiftRight_eq_div_pow x 16
  have e8 : x >>> 8 = x / 2 ^ 8 := Nat.shiftRight_eq_div_pow x 8
  rw [e56, e48, e40, e32, e24, e16, e8]
  omega

theorem rd64_append (l1 l2 : List Nat) (h : l1.length = 8) :
    rd64 (l1 ++ l2) = rd64 l1 := by
  unfold rd64
  rw [getD_append_lt _ _ _ (by omega), getD_append_lt _ _ _ (by omega),
    getD_append_lt _ _ _ (by omega), getD_append_lt _ _ _ (by omega),
    getD_append_lt _ _ _ (by omega), getD_append_lt _ _ _ (by omega),
    getD_append_lt _ _ _ (by omega), getD_append_lt _ _ _ (by omega)]

theorem flatten_be64_length (l : List Nat) :
    ((l.map be64).flatten).length = 8 * l.length := by
  induction l with
  | nil => rfl
  | cons w ws ih =>
    show ((be64 w ++ (ws.map be64).flatten)).length = _
    rw [List.length_append, ih]
    simp [be64]
    omega

theorem words_roundtrip (l : List Nat) (hb : ∀ w ∈ l, w < 2 ^ 64) :
    (List.range l.length).map (fun k => rd64 ((l.map be64).flatten.drop (8 * k))) = l := by
  induction l with
  | nil => rfl
  | cons w ws ih =>
    have hw : w < 2 ^ 64 := hb w (by simp)
    have hws : ∀ x ∈ ws, x < 2 ^ 64 := fun x hx => hb x (by simp [hx])
    show (List.range (ws.length + 1)).map _ = _
    rw [List.range_succ_eq_map, List.map_cons, List.map_map]
    congr 1
    · show rd64 (((w :: ws).map be64).flatten.drop (8 * 0)) = w
      rw [Nat.mul_zero, List.drop_zero]
      show rd64 (be64 w ++ (ws.map be64).flatten) = w
      rw [rd64_append (be64 w) _ rfl, rd64_be64 w hw]
    · rw [List.map_congr_left (g := fun k => rd64 ((ws.map be64).flatten.drop (8 * k)))
        ?_, ih hws]
      intro k _
      show rd64 (((w :: ws).map be64).flatten.drop (8 * (k + 1))) = _
      have hsplit : ((w :: ws).map be64).flatten.drop (8 * (k + 1))
          = ((ws.map be64).flatten).drop (8 * k) := by
        show (be64 w ++ (ws.map be64).flatten).drop (8 * (k + 1)) = _
        rw [show 8 * (k + 1) = (be64 w).length + 8 * k from by simp [be64]; omega,
          List.drop_append]
      rw [hsplit]

theorem WriteTo_bytes_lt (b : BitSet) : ∀ x ∈ WriteTo b, x < 256 := by
  unfold WriteTo
  intro x hx
  rw [List.mem_append] at hx
  rcases hx with hx | hx
  · exact be64_mem_lt _ x hx
  · rw [List.mem_flatten] at hx
    obtain ⟨l', hl', hxl⟩ := hx
    rw [List.mem_map] at hl'
    obtain ⟨w, _, hw⟩ := hl'
    exact be64_mem_lt w x (hw ▸ hxl)

theorem ReadFrom_WriteTo (v : BitSet) (h : WF v) : ReadFrom (WriteTo v) = .ok v := by
  obtain ⟨h1, h2, h3, _⟩ := h
  have hlen : v.length < 2 ^ 64 := by
    have : wordSize = 64 := rfl
    omega
  unfold ReadFrom WriteTo
  rw [readFull_ok _ 8 (by
      rw [List.length_append, show (be64 v.length).length = 8 from rfl]
      omega), Except_bind_ok]
  rw [show (be64 v.length ++ (v.set.map be64).flatten).take 8 = be64 v.length from by
    rw [show (8 : Nat) = (be64 v.length).length from rfl, List.take_left]]
  rw [show (be64 v.length ++ (v.set.map be64).flatten).drop 8
      = (v.set.map be64).flatten from by
    rw [show (8 : Nat) = (be64 v.length).length from rfl, List.drop_left]]
  dsimp only
  rw [rd64_be64 v.length hlen]
  rw [readFull_ok _ _ (by rw [flatten_be64_length, ← h1]), Except_bind_ok]
  dsimp only
  rw [List.take_of_length_le (by rw [flatten_be64_length, ← h1])]
  rw [show wordsNeeded v.length = v.set.length from h1.symm, words_roundtrip v.set h3]
  rfl

theorem jsonString_wrap (s : List Nat) : jsonString (34 :: s ++ [34]) = some s := by
  unfold jsonString
  simp [List.getLast?_concat, List.dropLast_concat]

theorem eqWords_self (l : List Nat) : eqWords l l = true := by
  induction l with
  | nil => rfl
  | cons w ws ih => simp [eqWords, ih]

theorem Equal_self (v : BitSet) : Equal v v = true := by
  unfold Equal
  rw [if_neg (by simp)]
  by_cases h0 : v.length = 0
  · rw [if_pos (by simp [h0])]
  · rw [if_neg (by simp [h0]), eqWords_self]

/-- C6: serialization round trip.  For every well-formed BitSet `v`,
including the empty vector of length 0, marshalling (`MarshalJSON`: the
base64url-wrapped binary layout produced by `WriteTo`) and unmarshalling into
a fresh BitSet (`UnmarshalJSON` / `ReadFrom`) succeed and yield a vector `w`
with `Equal w v = true` — at both the JSON layer and the raw binary layer. -/
theorem marshal_unmarshal_roundtrip (v : BitSet) (h : WF v) :
    (∃ w, UnmarshalJSON (MarshalJSON v) = .ok w ∧ Equal w v = true) ∧
      (∃ w, ReadFrom (WriteTo v) = .ok w ∧ Equal w v = true) := by
  have hbin : ReadFrom (WriteTo v) = .ok v := ReadFrom_WriteTo v h
  refine ⟨⟨v, ?_, Equal_self v⟩, ⟨v, hbin, Equal_self v⟩⟩
  unfold UnmarshalJSON MarshalJSON
  rw [jsonString_wrap]
  dsimp only
  rw [Except_bind_ok, b64_roundtrip _ (WriteTo_bytes_lt v)]
  dsimp only
  rw [Except_bind_ok]
  exact hbin

/-- C6 witness: the round trip applied to the empty vector of length 0 (the
Go zero value) . -/
theorem marshal_unmarshal_roundtrip_witness :
    WF ⟨0, []⟩ ∧
      ((∃ w, UnmarshalJSON (MarshalJSON ⟨0, []⟩) = .ok w ∧ Equal w ⟨0, []⟩ = true) ∧
        (∃ w, ReadFrom (WriteTo ⟨0, []⟩) = .ok w ∧ Equal w ⟨0, []⟩ = true)) :=
  ⟨by decide, marshal_unmarshal_roundtrip ⟨0, []⟩ (by decide)⟩

/-! Structural-edit proofs: word-level and list-level round-trip lemmas for
the spec-modelled `InsertAt` / `DeleteAt`. -/

theorem testBit63_of_lt (x : Nat) (hx : x < 2 ^ 64) :
    x.testBit 63 = decide (2 ^ 63 ≤ x) := by
  rw [Nat.testBit_to_div_mod]
  by_cases h : 2 ^ 63 ≤ x
  · simp only [h, decide_True]
    rw [decide_eq_true_eq]
    omega
  · simp only [h, decide_False]
    rw [decide_eq_false_iff_not]
    omega

theorem mod_or_top (w : Nat) (hw : w < 2 ^ 64) :
    w % 2 ^ 63 ||| cond (decide (2 ^ 63 ≤ w)) (2 ^ 63) 0 = w := by
  by_cases hc : 2 ^ 63 ≤ w
  · simp only [hc, decide_True, cond_true]
    have h := Nat.mul_add_lt_is_or (Nat.mod_lt w (show 0 < 2 ^ 63 by norm_num)) 1
    rw [Nat.mul_one] at h
    rw [Nat.or_comm, ← h]
    omega
  · simp only [hc, decide_False, cond_false, Nat.or_zero]
    omega

theorem shifted_shiftRight (w : Nat) (c : Bool) (hw : w < 2 ^ 64) :
    ((2 * w + cond c 1 0) % 2 ^ 64) >>> 1 = w % 2 ^ 63 := by
  rw [Nat.shiftRight_eq_div_pow]
  cases c <;> simp only [cond_true, cond_false] <;> omega

theorem shifted_bit0 (w : Nat) (c : Bool) :
    decide ((2 * w + cond c 1 0) % 2 ^ 64 % 2 = 1) = c := by
  cases c
  · simp only [cond_false]
    rw [decide_eq_false_iff_not]
    omega
  · simp only [cond_true]
    rw [decide_eq_true_eq]
    omega

theorem insWords_length (c : Bool) (ws : List Nat) :
    (insWords c ws).1.length = ws.length := by
  induction ws generalizing c with
  | nil => rfl
  | cons w ws ih => simp [insWords, ih]

theorem ins_del_words (c : Bool) (ws : List Nat) (hb : ∀ w ∈ ws, w < 2 ^ 64) :
    delWords ((insWords c ws).1 ++ [cond (insWords c ws).2 1 0]) = (ws ++ [0], c) := by
  induction ws generalizing c with
  | nil => cases c <;> rfl
  | cons w ws ih =>
    have hw : w < 2 ^ 64 := hb w (by simp)
    have hws : ∀ x ∈ ws, x < 2 ^ 64 := fun x hx => hb x (by simp [hx])
    have hrec := ih (decide (2 ^ 63 ≤ w)) hws
    show delWords ((2 * w + cond c 1 0) % 2 ^ 64 ::
        ((insWords (decide (2 ^ 63 ≤ w)) ws).1 ++
          [cond (insWords (decide (2 ^ 63 ≤ w)) ws).2 1 0]))
      = ((w :: ws) ++ [0], c)
    simp only [delWords]
    rw [hrec]
    rw [shifted_shiftRight w c hw, mod_or_top w hw, shifted_bit0 w c]
    rfl

theorem ins_del_words_nocarry (c : Bool) (ws : List Nat) (hb : ∀ w ∈ ws, w < 2 ^ 64)
    (h2 : (insWords c ws).2 = false) :
    delWords (insWords c ws).1 = (ws, c) := by
  induction ws generalizing c with
  | nil =>
    have h2c : c = false := h2
    show ([], false) = (([] : List Nat), c)
    rw [h2c]
  | cons w ws ih =>
    have hw : w < 2 ^ 64 := hb w (by simp)
    have hws : ∀ x ∈ ws, x < 2 ^ 64 := fun x hx => hb x (by simp [hx])
    have h2w : (insWords (decide (2 ^ 63 ≤ w)) ws).2 = false := h2
    have hrec := ih (decide (2 ^ 63 ≤ w)) hws h2w
    show delWords ((2 * w + cond c 1 0) % 2 ^ 64 ::
        (insWords (decide (2 ^ 63 ≤ w)) ws).1) = (w :: ws, c)
    simp only [delWords]
    rw [hrec]
    rw [shifted_shiftRight w c hw, mod_or_top w hw, shifted_bit0 w c]

theorem insWords_carry_eq (c : Bool) (ws : List Nat) :
    (insWords c ws).2
      = if ws.length = 0 then c
        else decide (2 ^ 63 ≤ ws.getD (ws.length - 1) 0) := by
  induction ws generalizing c with
  | nil => rfl
  | cons w ws ih =>
    show (insWords (decide (2 ^ 63 ≤ w)) ws).2 = _
    rw [ih]
    cases ws with
    | nil => rfl
    | cons y t =>
      simp only [List.length_cons]
      rw [if_neg (by omega), if_neg (by omega)]
      simp only [Nat.add_sub_cancel, List.getD_cons_succ]

theorem take_getD_drop (l : List Nat) (j : Nat) (h : j < l.length) :
    l.take j ++ l.getD j 0 :: l.drop (j + 1) = l := by
  conv_rhs => rw [← List.take_append_drop j l]
  congr 1
  rw [List.drop_eq_getElem_cons h]
  congr 1
  rw [List.getD_eq_getElem?_getD, List.getElem?_eq_getElem h]
  rfl

theorem drop_append_cons (l1 : List Nat) (x : Nat) (l2 : List Nat) :
    (l1 ++ x :: l2).drop (l1.length + 1) = l2 := by
  rw [List.append_cons, show l1.length + 1 = (l1 ++ [x]).length from by simp,
    List.drop_left]

theorem getD_append_cons_self (l1 : List Nat) (x : Nat) (l2 : List Nat) :
    (l1 ++ x :: l2).getD l1.length 0 = x := by
  rw [List.getD_eq_getElem?_getD, List.getElem?_append_right (le_refl _), Nat.sub_self]
  simp

theorem take_append_cons_self (l1 : List Nat) (x : Nat) (l2 : List Nat) :
    (l1 ++ x :: l2).take l1.length = l1 := List.take_left l1 (x :: l2)

theorem delIns_word (w r : Nat) (hw : w < 2 ^ 64) (hr : r < 64) :
    (w % 2 ^ r ||| (w >>> r <<< (r + 1)) % 2 ^ 64) % 2 ^ r
      ||| ((w % 2 ^ r ||| (w >>> r <<< (r + 1)) % 2 ^ 64) >>> (r + 1)) <<< r
      ||| cond (decide (2 ^ 63 ≤ w)) (2 ^ 63) 0 = w := by
  simp only [Nat.shiftLeft_eq, Nat.shiftRight_eq_div_pow]
  set s := 63 - r with hs
  have hrs : r + s = 63 := by omega
  set A := w / 2 ^ r with hA
  set lo := A % 2 ^ s with hlo
  set hi := A / 2 ^ s with hhi
  have hps : (0 : Nat) < 2 ^ s := Nat.pos_pow_of_pos s (by norm_num)
  have hpr : (0 : Nat) < 2 ^ r := Nat.pos_pow_of_pos r (by norm_num)
  have hAlt : A < 2 ^ s * 2 := by
    have h1 : A < 2 ^ (s + 1) := by
      rw [hA]
      apply Nat.div_lt_of_lt_mul
      rw [← pow_add, show r + (s + 1) = 64 from by omega]
      exact hw
    rw [pow_succ] at h1
    exact h1
  have hAeq : A = 2 ^ s * hi + lo := by rw [hhi, hlo, Nat.div_add_mod]
  have hhi01 : hi ≤ 1 := by
    have h2 : A / 2 ^ s < 2 := Nat.div_lt_of_lt_mul hAlt
    omega
  have hlolt : lo < 2 ^ s := Nat.mod_lt _ hps
  have hwr : w % 2 ^ r < 2 ^ r := Nat.mod_lt _ hpr
  have hwr1 : w % 2 ^ r < 2 ^ (r + 1) :=
    lt_of_lt_of_le hwr (Nat.pow_le_pow_right (by norm_num) (by omega))
  have hmod : A * 2 ^ (r + 1) % 2 ^ 64 = 2 ^ (r + 1) * lo := by
    have h1 : A * 2 ^ (r + 1) = 2 ^ 64 * hi + 2 ^ (r + 1) * lo := by
      rw [hAeq, Nat.add_mul]
      congr 1
      · rw [mul_comm (2 ^ s) hi, mul_assoc, ← pow_add,
          show s + (r + 1) = 64 from by omega, mul_comm]
      · rw [mul_comm]
    rw [h1, Nat.mul_add_mod]
    apply Nat.mod_eq_of_lt
    calc 2 ^ (r + 1) * lo < 2 ^ (r + 1) * 2 ^ s :=
          Nat.mul_lt_mul_of_le_of_lt (le_refl _) hlolt (by positivity)
      _ = 2 ^ 64 := by rw [← pow_add, show r + 1 + s = 64 from by omega]
  rw [hmod]
  have hor : w % 2 ^ r ||| 2 ^ (r + 1) * lo = 2 ^ (r + 1) * lo + w % 2 ^ r := by
    rw [Nat.or_comm]
    exact (Nat.mul_add_lt_is_or hwr1 lo).symm
  rw [hor]
  have hpiece1 : (2 ^ (r + 1) * lo + w % 2 ^ r) % 2 ^ r = w % 2 ^ r := by
    rw [show 2 ^ (r + 1) * lo = 2 ^ r * (2 * lo) from by rw [pow_succ]; ring,
      Nat.mul_add_mod]
    exact Nat.mod_eq_of_lt hwr
  have hpiece2 : (2 ^ (r + 1) * lo + w % 2 ^ r) / 2 ^ (r + 1) = lo := by
    rw [Nat.mul_add_div (by positivity), Nat.div_eq_of_lt hwr1, Nat.add_zero]
  rw [hpiece1, hpiece2]
  have hhival : hi = w / 2 ^ 63 := by
    rw [hhi, hA, Nat.div_div_eq_div_mul, ← pow_add, hrs]
  have hcond : (cond (decide (2 ^ 63 ≤ w)) (2 ^ 63) 0 : Nat) = 2 ^ 63 * hi := by
    by_cases hc : 2 ^ 63 ≤ w
    · simp only [hc, decide_True, cond_true, hhival]
      rw [show w / 2 ^ 63 = 1 from by omega]
      ring
    · simp only [hc, decide_False, cond_false, hhival]
      rw [show w / 2 ^ 63 = 0 from by omega]
      ring
  rw [hcond]
  have hor2 : w % 2 ^ r ||| lo * 2 ^ r = 2 ^ r * lo + w % 2 ^ r := by
    rw [Nat.or_comm, mul_comm lo (2 ^ r)]
    exact (Nat.mul_add_lt_is_or hwr lo).symm
  rw [hor2]
  have hlt3 : 2 ^ r * lo + w % 2 ^ r < 2 ^ 63 := by
    have h1 : 2 ^ r * lo + w % 2 ^ r < 2 ^ r * (lo + 1) := by
      rw [Nat.mul_add, Nat.mul_one]
      omega
    have h2 : 2 ^ r * (lo + 1) ≤ 2 ^ r * 2 ^ s := Nat.mul_le_mul_left _ (by omega)
    rw [← pow_add, hrs] at h2
    omega
  have hor3 : 2 ^ r * lo + w % 2 ^ r ||| 2 ^ 63 * hi
      = 2 ^ 63 * hi + (2 ^ r * lo + w % 2 ^ r) := by
    rw [Nat.or_comm]
    exact (Nat.mul_add_lt_is_or hlt3 hi).symm
  rw [hor3]
  conv_rhs => rw [← Nat.div_add_mod w (2 ^ r)]
  rw [show w / 2 ^ r = A from rfl, hAeq, Nat.mul_add, ← mul_assoc, ← pow_add, hrs]
  ring

theorem DeleteAt_InsertAt_eq (v : BitSet) (p : Nat) (hwf : WF v) (hp : p ≤ v.length)
    (hroom : v.length + 65 ≤ 2 ^ 64) :
    DeleteAt (InsertAt v p) p = v := by
  obtain ⟨h1, h2, h3, h4⟩ := hwf
  have hL64 : v.length ≤ 64 * v.set.length := by
    rw [h1]
    exact le_mul_wordsNeeded _ (by omega)
  have hwn1 : wordsNeeded (v.length + 1) = (v.length + 64) / 64 :=
    wordsNeeded_eq _ (by omega)
  have hwn0 : wordsNeeded v.length = (v.length + 63) / 64 :=
    wordsNeeded_eq _ (by omega)
  have hdivle : 64 * (p / 64) ≤ p := Nat.mul_div_le p 64
  by_cases hj : p / 64 < v.set.length
  · have hr64 : p % 64 < 64 := Nat.mod_lt _ (by norm_num)
    have hwmem : v.set.getD (p / 64) 0 ∈ v.set := by
      rw [List.getD_eq_getElem?_getD, List.getElem?_eq_getElem hj]
      exact List.getElem_mem _
    have hw64 : v.set.getD (p / 64) 0 < 2 ^ 64 := h3 _ hwmem
    have hdropb : ∀ x ∈ v.set.drop (p / 64 + 1), x < 2 ^ 64 :=
      fun x hx => h3 x (List.mem_of_mem_drop hx)
    have hn0 : 0 < v.set.length := by omega
    unfold InsertAt
    dsimp only
    set w := v.set.getD (p / 64) 0 with hwd
    set q := insWords (decide (2 ^ 63 ≤ w)) (v.set.drop (p / 64 + 1)) with hqd
    set wjv := w % 2 ^ (p % 64) ||| (w >>> (p % 64) <<< (p % 64 + 1)) % 2 ^ 64 with hwjd
    have htklen : (v.set.take (p / 64)).length = p / 64 := by
      rw [List.length_take]
      omega
    have hwordslen : (v.set.take (p / 64) ++ wjv :: q.1).length = v.set.length := by
      rw [List.length_append, List.length_cons, htklen, hqd, insWords_length,
        List.length_drop]
      omega
    have hdelins : wjv % 2 ^ (p % 64) ||| wjv >>> (p % 64 + 1) <<< (p % 64) |||
        cond (decide (2 ^ 63 ≤ w)) (2 ^ 63) 0 = w := by
      rw [hwjd]
      exact delIns_word w (p % 64) hw64 hr64
    by_cases hgrow : (v.set.take (p / 64) ++ wjv :: q.1).length
        < wordsNeeded (v.length + 1)
    · rw [if_pos hgrow]
      have hassoc : (v.set.take (p / 64) ++ wjv :: q.1) ++ [cond q.2 1 0]
          = v.set.take (p / 64) ++ wjv :: (q.1 ++ [cond q.2 1 0]) := by
        rw [List.append_assoc]
        rfl
      rw [hassoc]
      unfold DeleteAt
      dsimp only
      have hgetd := getD_append_cons_self (v.set.take (p / 64)) wjv
        (q.1 ++ [cond q.2 1 0])
      rw [htklen] at hgetd
      have hdrop := drop_append_cons (v.set.take (p / 64)) wjv
        (q.1 ++ [cond q.2 1 0])
      rw [htklen] at hdrop
      have htake := take_append_cons_self (v.set.take (p / 64)) wjv
        (q.1 ++ [cond q.2 1 0])
      rw [htklen] at htake
      rw [hgetd, hdrop, htake, hqd, ins_del_words _ _ hdropb]
      dsimp only
      rw [hdelins]
      have hinner : v.set.take (p / 64) ++ w :: (v.set.drop (p / 64 + 1) ++ [0])
          = v.set ++ [0] := by
        rw [show (w :: (v.set.drop (p / 64 + 1) ++ [0]))
            = (w :: v.set.drop (p / 64 + 1)) ++ [0] from rfl,
          ← List.append_assoc, hwd, take_getD_drop v.set (p / 64) hj]
      rw [hinner, Nat.add_sub_cancel, ← h1, List.take_left v.set [0]]
    · rw [if_neg hgrow]
      rw [hwordslen] at hgrow
      have hLlt : v.length + 1 ≤ 64 * v.set.length := by omega
      have htb := h4 (64 * (v.set.length - 1) + 63) (by omega)
      unfold bitAt at htb
      rw [show (64 * (v.set.length - 1) + 63) / 64 = v.set.length - 1 from by omega,
        show (64 * (v.set.length - 1) + 63) % 64 = 63 from by omega] at htb
      have hcarry : q.2 = false := by
        rw [hqd, insWords_carry_eq]
        split
        · rename_i hdz
          rw [List.length_drop] at hdz
          rw [← testBit63_of_lt _ hw64, hwd,
            show p / 64 = v.set.length - 1 from by omega]
          exact htb
        · rename_i hdz
          rw [List.length_drop] at hdz
          rw [getD_drop, List.length_drop,
            show p / 64 + 1 + (v.set.length - (p / 64 + 1) - 1)
              = v.set.length - 1 from by omega]
          have hmemn : v.set.getD (v.set.length - 1) 0 ∈ v.set := by
            rw [List.getD_eq_getElem?_getD,
              List.getElem?_eq_getElem (show v.set.length - 1 < v.set.length from by omega)]
            exact List.getElem_mem _
          rw [← testBit63_of_lt _ (h3 _ hmemn)]
          exact htb
      unfold DeleteAt
      dsimp only
      have hgetd := getD_append_cons_self (v.set.take (p / 64)) wjv q.1
      rw [htklen] at hgetd
      have hdrop := drop_append_cons (v.set.take (p / 64)) wjv q.1
      rw [htklen] at hdrop
      have htake := take_append_cons_self (v.set.take (p / 64)) wjv q.1
      rw [htklen] at htake
      have hcarry2 : (insWords (decide (2 ^ 63 ≤ w)) (v.set.drop (p / 64 + 1))).2
          = false := by
        rw [← hqd]
        exact hcarry
      rw [hgetd, hdrop, htake, hqd, ins_del_words_nocarry _ _ hdropb hcarry2]
      dsimp only
      rw [hdelins]
      rw [hwd, take_getD_drop v.set (p / 64) hj, Nat.add_sub_cancel, ← h1,
        List.take_length]
  · -- the bit is appended at the very end of a word-aligned vector
    have hpL : p = v.length := by omega
    have hL : v.length = 64 * v.set.length := by omega
    have hj64 : p / 64 = v.set.length := by omega
    have hr0 : p % 64 = 0 := by omega
    have hins : InsertAt v p = ⟨v.length + 1, v.set ++ [0]⟩ := by
      unfold InsertAt
      dsimp only
      rw [hj64, hr0, List.getD_eq_default _ _ (le_refl _),
        List.drop_eq_nil_of_le (by omega), List.take_length]
      norm_num
      rw [if_neg (by
        simp only [List.length_append, List.length_cons, List.length_nil,
          insWords_length, List.length_nil]
        omega)]
      rfl
    rw [hins]
    unfold DeleteAt
    dsimp only
    rw [hj64, hr0, getD_append_cons_self v.set 0 [], drop_append_cons v.set 0 [],
      take_append_cons_self v.set 0 []]
    norm_num [delWords]
    rw [← h1, List.take_left v.set [0]]

/-- C8: structural-edit round trip for the spec-modelled `InsertAt` /
`DeleteAt` (these operations are not in `src/`; they are modelled from §4.3 of
the spec).  For every well-formed vector `v` and position `p ≤ v.Len()`,
inserting one clear bit at `p` and deleting position `p` again restores the
original: `DeleteAt(InsertAt(v, p), p).Equal(v)`. -/
theorem insertAt_deleteAt_roundtrip (v : BitSet) (p : Nat) (hwf : WF v)
    (hp : p ≤ v.length) (hroom : v.length + 65 ≤ 2 ^ 64) :
    Equal (DeleteAt (InsertAt v p) p) v = true := by
  rw [DeleteAt_InsertAt_eq v p hwf hp hroom]
  exact Equal_self v

/-- C8 witness: the round trip at position 65 of a concrete well-formed
70-bit vector (insertion crosses a word boundary and grows the storage). -/
theorem insertAt_deleteAt_roundtrip_witness :
    WF sample70 ∧ 65 ≤ sample70.length ∧ sample70.length + 65 ≤ 2 ^ 64 ∧
      Equal (DeleteAt (InsertAt sample70 65) 65) sample70 = true :=
  ⟨by decide, by decide, by decide,
   insertAt_deleteAt_roundtrip sample70 65 (by decide) (by decide) (by decide)⟩

end BitsetSpec
